import Mathlib

/-!
Verification of the docx→markdown batch converter (`convert.py`).

Text is modelled as `List Char` (Python `str`).  Modelling notes:
* `str.splitlines` is modelled as splitting on `'\n'` only; the rarer
  Unicode line terminators (`\r`, `\v`, `\f`, …) that Python also splits
  on are not modelled.
* Python's whitespace class (used by `str.strip`, `str.rstrip` and the
  regex class `\s`) is modelled by its ASCII part
  `{' ', '\t', '\n', '\r', '\v', '\f'}`; the regex word class `\w`
  (used only through the word boundary `\b` in `RE_HTML_TAG`) by its
  ASCII part `[A-Za-z0-9_]`.
* The subprocess call `run_pandoc` is an external effect; the fallback
  driver is modelled as a function of an abstract converter
  `conv : format → Bool × message`, exactly as the spec's own testable
  properties do ("given a fake converter …").
-/

namespace Metrix

/-- Python whitespace (ASCII part), as used by `str.strip`/`str.rstrip`
and the regex class `\s`. -/
def isSpaceC (c : Char) : Bool :=
  c = ' ' || c = '\t' || c = '\n' || c = '\r' || c = '\x0b' || c = '\x0c'

/-- Python `str.lstrip()` (left strip of whitespace). -/
def lstripC (s : List Char) : List Char := s.dropWhile isSpaceC

/-- Python `str.rstrip()` (right strip of whitespace). -/
def rstripC (s : List Char) : List Char := (s.reverse.dropWhile isSpaceC).reverse

/-- Python `str.strip()` (both ends). -/
def stripC (s : List Char) : List Char := rstripC (lstripC s)

/-- Python `str.splitlines()` restricted to `'\n'` separators:
`"".splitlines() = []`, a trailing newline produces no extra empty line. -/
def splitlinesPy : List Char → List (List Char)
  | [] => []
  | c :: s =>
    if c = '\n' then [] :: splitlinesPy s
    else
      match splitlinesPy s with
      | [] => [[c]]
      | l :: ls => (c :: l) :: ls

/-- Python `"\n".join(lines)`. -/
def joinNL : List (List Char) → List Char
  | [] => []
  | [l] => l
  | l :: m :: ls => l ++ '\n' :: joinNL (m :: ls)

/-- The part of `RE_FENCED_DIV_LINE` after `^\s*:::+\s*`: either nothing,
or a brace group `\{.*\}` followed by whitespace (`s3` is the rest of the
line after the colons, with its leading whitespace removed). -/
def fencedTail (s3 : List Char) : Bool :=
  s3.isEmpty ||
    (s3.head? = some '\x7b' && (rstripC (s3.drop 1)).getLast? = some '\x7d')

/-- Model of `RE_FENCED_DIV_LINE = ^\s*:::+\s*(\{.*\})?\s*$` matching the
whole line: optional whitespace, three or more colons, optional
whitespace, an optional brace group `{…}` followed by whitespace. -/
def fencedB (l : List Char) : Bool :=
  3 ≤ ((l.dropWhile isSpaceC).takeWhile (fun c => c = ':')).length &&
    fencedTail
      (((l.dropWhile isSpaceC).dropWhile (fun c => c = ':')).dropWhile isSpaceC)

/-- Model of `RE_ATTR_TRAILING.sub("", line)` with
`RE_ATTR_TRAILING = \s*\{[^}]*\}\s*$`: the line must end (up to trailing
whitespace) in `}`; the matched `{` is the first `{` after the
second-to-last `}` (the content `[^}]*` cannot contain `}`); the match
extends left over the whitespace right before that `{`.  If no match,
the line is returned unchanged.

`attrRegion restRev` is the segment of the line strictly between the
second-to-last `}` (or the start of the line) and the final `}`, given
the reversed line content `restRev` before the final `}`. -/
def attrRegion (restRev : List Char) : List Char :=
  (restRev.takeWhile (fun c => c ≠ '\x7d')).reverse

def attrSub (line : List Char) : List Char :=
  match (rstripC line).reverse with
  | '\x7d' :: restRev =>
    if '\x7b' ∈ attrRegion restRev then
      rstripC (restRev.reverse.take
          (restRev.reverse.length - (attrRegion restRev).length) ++
        (attrRegion restRev).takeWhile (fun c => c ≠ '\x7b'))
    else line
  | _ => line

/-- ASCII letter, the regex class `[A-Za-z]`. -/
def isAlphaC (c : Char) : Bool := ('A' ≤ c && c ≤ 'Z') || ('a' ≤ c && c ≤ 'z')

/-- ASCII letter or digit, the regex class `[A-Za-z0-9]`. -/
def isAlnumC (c : Char) : Bool := isAlphaC c || ('0' ≤ c && c ≤ '9')

/-- Given the text right after a `<`, the number of characters (after the
`<`) consumed by a match of `/?([A-Za-z][A-Za-z0-9]*)\b[^>]*>`, the rest
of `RE_HTML_TAG`.  The tag-name run is maximal, so the word boundary `\b`
fails exactly when the next character is `_`; `[^>]*` runs to the first
`>`. -/
def tagAfterLt (s : List Char) : Option Nat :=
  let slash : Nat := if s.head? = some '/' then 1 else 0
  let s1 := if s.head? = some '/' then s.tail else s
  match s1 with
  | c :: r =>
    if isAlphaC c then
      let name := r.takeWhile isAlnumC
      let r2 := r.dropWhile isAlnumC
      if r2.head? = some '_' then none
      else
        let mid := r2.takeWhile (fun d => d ≠ '>')
        match r2.dropWhile (fun d => d ≠ '>') with
        | '>' :: _ => some (slash + 1 + name.length + mid.length + 1)
        | _ => none
    else none
  | [] => none

/-- The scan of `RE_HTML_TAG.sub("", line)` with explicit fuel (one unit
per character position, enough as soon as the fuel is at least the length
of the text): every non-overlapping match of
`</?([A-Za-z][A-Za-z0-9]*)\b[^>]*>` is removed, scanning left to right
and resuming right after each match. -/
def tagSubF : Nat → List Char → List Char
  | 0, s => s
  | _, [] => []
  | fuel + 1, c :: rest =>
    if c = '<' then
      match tagAfterLt rest with
      | some n => tagSubF fuel (rest.drop n)
      | none => '<' :: tagSubF fuel rest
    else c :: tagSubF fuel rest

/-- Model of `RE_HTML_TAG.sub("", line)`. -/
def tagSub (s : List Char) : List Char := tagSubF s.length s

/-- The per-line loop of `clean_markdown`: drop lines matching
`RE_FENCED_DIV_LINE`, apply `RE_ATTR_TRAILING.sub` then
`RE_HTML_TAG.sub`, and right-strip each kept line. -/
def processLines : List (List Char) → List (List Char)
  | [] => []
  | l :: ls =>
    if fencedB l then processLines ls
    else rstripC (tagSub (attrSub l)) :: processLines ls

/-- Emission of a pending newline run under `RE_MULTI_BLANK.sub`: a run
of three or more newlines becomes exactly two, shorter runs are kept. -/
def emitNL (n : Nat) : List Char := List.replicate (if 3 ≤ n then 2 else n) '\n'

/-- The scan of `RE_MULTI_BLANK.sub("\n\n", text)`, carrying the length
of the pending newline run. -/
def collapseGo : Nat → List Char → List Char
  | n, [] => emitNL n
  | n, c :: s =>
    if c = '\n' then collapseGo (n + 1) s
    else emitNL n ++ c :: collapseGo 0 s

/-- Model of `RE_MULTI_BLANK.sub("\n\n", text)` with
`RE_MULTI_BLANK = \n{3,}`: every maximal run of three or more newlines
is replaced by exactly two. -/
def collapseBlanks (t : List Char) : List Char := collapseGo 0 t

/-- Whether a text contains three consecutive newline characters
(an occurrence of `RE_MULTI_BLANK`, i.e. more than one blank line). -/
def hasTriple : List Char → Bool
  | [] => false
  | [_] => false
  | [_, _] => false
  | a :: b :: c :: s =>
    (a = '\n' && b = '\n' && c = '\n') || hasTriple (b :: c :: s)

/-- A line in normalized position: right-stripped, not a fenced-div
delimiter line, and free of `'\n'`, `'{'` and `'<'` characters. -/
def goodLine (l : List Char) : Prop :=
  rstripC l = l ∧ fencedB l = false ∧ '\n' ∉ l ∧ '\x7b' ∉ l ∧ '<' ∉ l

/-- Every line of the text is free of trailing whitespace
(`l.rstrip() == l` for each line). -/
def linesRstripped (t : List Char) : Bool :=
  (splitlinesPy t).all (fun l => rstripC l == l)

/-- The text ends with exactly one newline and no trailing blank line
before it: its last character is `'\n'` and the character before that,
if any, is not whitespace. -/
def endsSingleNL (t : List Char) : Bool :=
  t.getLast? == some '\n' &&
    (match t.dropLast.getLast? with
     | none => true
     | some c => !isSpaceC c)

/-- A line that is nothing but a trailing-attribute group: the shape
`\s*\{[^}]*\}\s*` (whitespace, one brace group, whitespace), i.e. a full
match of `RE_ATTR_TRAILING`. -/
def attrOnlyB (l : List Char) : Bool :=
  match lstripC l with
  | '\x7b' :: r =>
    (rstripC r).getLast? == some '\x7d' &&
      !((rstripC r).dropLast.contains '\x7d')
  | _ => false

/-- The defensive re-pass
`"\n".join("" if l.strip() == "" else l for l in text.splitlines())`. -/
def blankNormalize (t : List Char) : List Char :=
  joinNL ((splitlinesPy t).map (fun l => if l.all isSpaceC then [] else l))

/-- `clean_markdown` from `convert.py`: per-line cleaning, join, blank-run
collapsing, blank-line normalization, whole-text strip plus one final
newline. -/
def clean_markdown (md_text : List Char) : List Char :=
  let text := joinNL (processLines (splitlinesPy md_text))
  let text := collapseBlanks text
  let text := blankNormalize text
  stripC text ++ ['\n']

/-- `TO_CANDIDATES` from `convert.py`: the ordered list of pandoc `-t`
format specifiers. -/
def TO_CANDIDATES : List (List Char) :=
  ["gfm-raw_html-fenced_divs-bracketed_spans".data,
   "gfm-raw_html-fenced_divs".data,
   "gfm-raw_html".data,
   "gfm".data,
   "markdown-raw_html".data,
   "markdown".data,
   "plain".data]

/-- The loop of `convert_with_fallback`, with the running `last_error`
accumulator.  `conv fmt` abstracts one `run_pandoc` invocation, returning
`(ok, msg)`.  On failure of a candidate `f`, `last_error` becomes
`f"[{f}] {msg}"`. -/
def fallbackGo (conv : List Char → Bool × List Char) (lastError : List Char) :
    List (List Char) → Bool × List Char × List Char
  | [] => (false, [], lastError)
  | f :: rest =>
    if (conv f).1 then (true, f, (conv f).2)
    else fallbackGo conv ('[' :: f ++ ']' :: ' ' :: (conv f).2) rest

/-- `convert_with_fallback` from `convert.py`, over an abstract converter
and candidate list: returns `(успех, выбранный_формат, сообщение)` =
`(success, chosen format, message)`. -/
def convert_with_fallback (conv : List Char → Bool × List Char)
    (cands : List (List Char)) : Bool × List Char × List Char :=
  fallbackGo conv [] cands

/-- The sequence of formats the loop actually invokes `run_pandoc` with:
the loop body performs exactly one invocation per iteration and returns
on the first success, so the trace is the prefix of the candidate list up
to and including the first succeeding candidate. -/
def fallbackTrace (conv : List Char → Bool × List Char) :
    List (List Char) → List (List Char)
  | [] => []
  | f :: rest =>
    if (conv f).1 then [f] else f :: fallbackTrace conv rest

/-- `SKIP_DIRS` from `convert.py`. -/
def SKIP_DIRS : List (List Char) :=
  [".vs".data, "md_out".data, "__pycache__".data, ".git".data]

/-- `Path.relative_to` on paths modelled as component lists: defined when
`base`'s components are a prefix of `path`'s, otherwise `ValueError`
(here `none`). -/
def relativeTo (path base : List (List Char)) : Option (List (List Char)) :=
  if base.isPrefixOf path then some (path.drop base.length) else none

/-- `is_in_skipped_dir` from `convert.py`: the `ValueError` from
`relative_to` is caught and turned into `False`; otherwise any relative
component in `SKIP_DIRS` makes it `True`. -/
def is_in_skipped_dir (path base : List (List Char)) : Bool :=
  match relativeTo path base with
  | none => false
  | some parts => parts.any (fun p => SKIP_DIRS.contains p)

/-! ### Whitespace-stripping toolkit -/

theorem mem_rstripC {c : Char} {s : List Char} (h : c ∈ rstripC s) : c ∈ s := by
  unfold rstripC at h
  rw [List.mem_reverse] at h
  exact List.mem_reverse.mp ((List.dropWhile_sublist isSpaceC).subset h)

theorem mem_lstripC {c : Char} {s : List Char} (h : c ∈ lstripC s) : c ∈ s :=
  (List.dropWhile_sublist isSpaceC).subset h

theorem mem_stripC {c : Char} {s : List Char} (h : c ∈ stripC s) : c ∈ s :=
  mem_lstripC (mem_rstripC h)

theorem rstripC_decomp (s : List Char) :
    ∃ z, s = rstripC s ++ z ∧ ∀ c ∈ z, isSpaceC c = true := by
  refine ⟨(s.reverse.takeWhile isSpaceC).reverse, ?_, ?_⟩
  · conv_lhs => rw [← s.reverse_reverse,
      ← List.takeWhile_append_dropWhile (p := isSpaceC) (l := s.reverse)]
    rw [List.reverse_append]
    rfl
  · intro c hc
    exact List.mem_takeWhile_imp (List.mem_reverse.mp hc)

theorem lstripC_decomp (s : List Char) :
    ∃ z, s = z ++ lstripC s ∧ ∀ c ∈ z, isSpaceC c = true := by
  refine ⟨s.takeWhile isSpaceC, (List.takeWhile_append_dropWhile _ _).symm, ?_⟩
  intro c hc
  exact List.mem_takeWhile_imp hc

theorem rstripC_append_spaces {z : List Char} (hz : ∀ c ∈ z, isSpaceC c = true)
    (s : List Char) : rstripC (s ++ z) = rstripC s := by
  unfold rstripC
  rw [List.reverse_append, List.dropWhile_append]
  have h0 : z.reverse.dropWhile isSpaceC = [] :=
    List.dropWhile_eq_nil_iff.mpr (fun c hc => hz c (List.mem_reverse.mp hc))
  simp [h0]

theorem rstripC_append_left {z : List Char} (hz : rstripC z ≠ []) (s : List Char) :
    rstripC (s ++ z) = s ++ rstripC z := by
  have h0 : z.reverse.dropWhile isSpaceC ≠ [] := by
    intro h; exact hz (by simp [rstripC, h])
  unfold rstripC
  rw [List.reverse_append, List.dropWhile_append]
  simp only [List.isEmpty_iff, h0, if_false, List.reverse_append, List.reverse_reverse]

theorem rstripC_eq_nil_iff {s : List Char} :
    rstripC s = [] ↔ ∀ c ∈ s, isSpaceC c = true := by
  unfold rstripC
  rw [List.reverse_eq_nil_iff, List.dropWhile_eq_nil_iff]
  constructor
  · intro h c hc; exact h c (List.mem_reverse.mpr hc)
  · intro h c hc; exact h c (List.mem_reverse.mp hc)

theorem rstripC_idem (s : List Char) : rstripC (rstripC s) = rstripC s := by
  unfold rstripC
  rw [List.reverse_reverse]
  congr 1
  rw [List.dropWhile_eq_self_iff]
  intro hl
  have hne : s.reverse.dropWhile isSpaceC ≠ [] := by
    intro h; rw [h] at hl; simp at hl
  have hhead := List.head_dropWhile_not isSpaceC s.reverse hne
  rw [List.get_mk_zero hl]
  simp [hhead]

theorem rstripC_eq_self_of {s : List Char} {c : Char} (h : s.getLast? = some c)
    (hc : isSpaceC c = false) : rstripC s = s := by
  have hrev : s.reverse.head? = some c := by
    rw [List.head?_reverse]; exact h
  unfold rstripC
  cases hs : s.reverse with
  | nil => simp [hs] at hrev
  | cons a t =>
    rw [hs] at hrev
    simp only [List.head?_cons, Option.some.injEq] at hrev
    subst hrev
    rw [List.dropWhile_cons, hc]
    simp [← hs]

theorem rstripC_getLast?_not_space {s : List Char} (h : rstripC s ≠ []) :
    ∃ c, (rstripC s).getLast? = some c ∧ isSpaceC c = false := by
  have hd : s.reverse.dropWhile isSpaceC ≠ [] := by
    intro h0; exact h (by simp [rstripC, h0])
  refine ⟨(s.reverse.dropWhile isSpaceC).head hd, ?_, ?_⟩
  · unfold rstripC
    rw [List.getLast?_reverse]
    exact List.head?_eq_head hd
  · exact List.head_dropWhile_not isSpaceC s.reverse hd

theorem getLast?_not_space_of_rstripC_self {s : List Char} (h : rstripC s = s)
    (hne : s ≠ []) : ∃ c, s.getLast? = some c ∧ isSpaceC c = false := by
  have := rstripC_getLast?_not_space (s := s) (by rw [h]; exact hne)
  rwa [h] at this

theorem rstripC_suffix_self {a b : List Char} (h : rstripC (a ++ b) = a ++ b)
    (hb : b ≠ []) : rstripC b = b := by
  obtain ⟨c, hc, hcs⟩ := getLast?_not_space_of_rstripC_self h (by simp [hb])
  rw [List.getLast?_append_of_ne_nil _ hb] at hc
  exact rstripC_eq_self_of hc hcs

theorem lstripC_append {a : List Char} (ha : lstripC a ≠ []) (b : List Char) :
    lstripC (a ++ b) = lstripC a ++ b := by
  unfold lstripC at *
  rw [List.dropWhile_append]
  simp [List.isEmpty_iff, ha]

theorem lstripC_eq_nil_iff {s : List Char} :
    lstripC s = [] ↔ ∀ c ∈ s, isSpaceC c = true :=
  List.dropWhile_eq_nil_iff

theorem lstripC_eq_self_of {s : List Char} {c : Char} (h : s.head? = some c)
    (hc : isSpaceC c = false) : lstripC s = s := by
  cases s with
  | nil => rfl
  | cons a t =>
    simp only [List.head?_cons, Option.some.injEq] at h
    subst h
    unfold lstripC
    rw [List.dropWhile_cons, hc]
    simp

theorem head?_lstripC_not_space {s : List Char} (h : lstripC s ≠ []) :
    ∃ c, (lstripC s).head? = some c ∧ isSpaceC c = false :=
  ⟨(s.dropWhile isSpaceC).head h, List.head?_eq_head h,
    List.head_dropWhile_not isSpaceC s h⟩

theorem head?_rstripC {s : List Char} (h : rstripC s ≠ []) :
    (rstripC s).head? = s.head? := by
  obtain ⟨z, hz, -⟩ := rstripC_decomp s
  conv_rhs => rw [hz]
  cases hr : rstripC s with
  | nil => exact absurd hr h
  | cons a t => simp [hr]

theorem lstripC_rstripC_lstripC (s : List Char) :
    lstripC (rstripC (lstripC s)) = rstripC (lstripC s) := by
  cases hr : rstripC (lstripC s) with
  | nil => rfl
  | cons a t =>
    by_cases hw : lstripC s = []
    · rw [hw] at hr; simp [rstripC] at hr
    · obtain ⟨c, hc, hcs⟩ := head?_lstripC_not_space hw
      have hh : (rstripC (lstripC s)).head? = some c := by
        rw [head?_rstripC (by rw [hr]; simp)]; exact hc
      rw [← hr]
      exact lstripC_eq_self_of hh hcs

theorem stripC_idem (s : List Char) : stripC (stripC s) = stripC s := by
  unfold stripC
  rw [lstripC_rstripC_lstripC, rstripC_idem]

theorem stripC_append_spaces {z : List Char} (hz : ∀ c ∈ z, isSpaceC c = true)
    (s : List Char) : stripC (s ++ z) = stripC s := by
  unfold stripC
  by_cases hs : lstripC s = []
  · have h1 : lstripC (s ++ z) = [] := by
      rw [lstripC_eq_nil_iff]
      intro c hc
      rcases List.mem_append.mp hc with h | h
      · exact lstripC_eq_nil_iff.mp hs c h
      · exact hz c h
    rw [h1, hs]
  · rw [lstripC_append hs, rstripC_append_spaces hz]

theorem stripC_getLast?_not_space {s : List Char} (h : stripC s ≠ []) :
    ∃ c, (stripC s).getLast? = some c ∧ isSpaceC c = false :=
  rstripC_getLast?_not_space h

theorem stripC_eq_self_of_parts {s : List Char} (h1 : lstripC s = s)
    (h2 : rstripC s = s) : stripC s = s := by
  unfold stripC; rw [h1, h2]

/-! ### `splitlines` / `join` toolkit -/

theorem splitlines_cons_nl (s : List Char) :
    splitlinesPy ('\n' :: s) = [] :: splitlinesPy s := by
  simp [splitlinesPy]

theorem splitlines_cons_of_ne {c : Char} (hc : c ≠ '\n') (s : List Char) :
    splitlinesPy (c :: s) =
      match splitlinesPy s with
      | [] => [[c]]
      | l :: ls => (c :: l) :: ls := by
  simp [splitlinesPy, hc]

theorem splitlines_eq_nil_iff {t : List Char} : splitlinesPy t = [] ↔ t = [] := by
  constructor
  · intro h
    cases t with
    | nil => rfl
    | cons c s =>
      by_cases hc : c = '\n'
      · subst hc; rw [splitlines_cons_nl] at h; cases h
      · rw [splitlines_cons_of_ne hc] at h
        revert h
        cases splitlinesPy s <;> intro h <;> cases h
  · intro h; subst h; rfl

theorem splitlines_append_nl {a : List Char} (ha : ∀ c ∈ a, c ≠ '\n')
    (y : List Char) : splitlinesPy (a ++ '\n' :: y) = a :: splitlinesPy y := by
  induction a with
  | nil => simpa using splitlines_cons_nl y
  | cons c a ih =>
    have hc : c ≠ '\n' := ha c (List.mem_cons_self c a)
    rw [List.cons_append, splitlines_cons_of_ne hc,
      ih (fun d hd => ha d (List.mem_cons_of_mem c hd))]

theorem splitlines_no_nl {a : List Char} (ha : ∀ c ∈ a, c ≠ '\n')
    (hne : a ≠ []) : splitlinesPy a = [a] := by
  induction a with
  | nil => exact absurd rfl hne
  | cons c a ih =>
    have hc : c ≠ '\n' := ha c (List.mem_cons_self c a)
    rw [splitlines_cons_of_ne hc]
    cases a with
    | nil => rfl
    | cons d a' =>
      rw [ih (fun e he => ha e (List.mem_cons_of_mem c he)) (by simp)]

theorem joinNL_cons {L : List (List Char)} (hL : L ≠ []) (l : List Char) :
    joinNL (l :: L) = l ++ '\n' :: joinNL L := by
  cases L with
  | nil => exact absurd rfl hL
  | cons m ls => rfl

theorem joinNL_splitlines_cons_of_ne {c : Char} (hc : c ≠ '\n') (s : List Char) :
    joinNL (splitlinesPy (c :: s)) = c :: joinNL (splitlinesPy s) := by
  rw [splitlines_cons_of_ne hc]
  cases splitlinesPy s with
  | nil => rfl
  | cons l ls =>
    cases ls with
    | nil => rfl
    | cons m ls' => rfl

theorem join_splitlines (t : List Char) :
    joinNL (splitlinesPy t) = if t.getLast? = some '\n' then t.dropLast else t := by
  induction t with
  | nil => simp [splitlinesPy, joinNL]
  | cons c s ih =>
    cases s with
    | nil =>
      by_cases hc : c = '\n'
      · subst hc; simp [splitlines_cons_nl, splitlinesPy, joinNL]
      · rw [splitlines_cons_of_ne hc]
        simp [splitlinesPy, joinNL, hc]
    | cons d s' =>
      have hlast : (c :: d :: s').getLast? = (d :: s').getLast? :=
        List.getLast?_cons_cons
      by_cases hc : c = '\n'
      · subst hc
        rw [splitlines_cons_nl]
        have hne : splitlinesPy (d :: s') ≠ [] := by
          simp [splitlines_eq_nil_iff]
        rw [joinNL_cons hne, ih, hlast]
        by_cases hd : (d :: s').getLast? = some '\n'
        · simp [hd, List.dropLast_cons₂]
        · simp [hd]
      · rw [joinNL_splitlines_cons_of_ne hc, ih, hlast]
        by_cases hd : (d :: s').getLast? = some '\n'
        · simp [hd, List.dropLast_cons₂]
        · simp [hd]

theorem splitlines_concat_nl {t : List Char} (hne : t ≠ [])
    (hlast : t.getLast? ≠ some '\n') :
    splitlinesPy (t ++ ['\n']) = splitlinesPy t := by
  induction t with
  | nil => exact absurd rfl hne
  | cons c s ih =>
    cases s with
    | nil =>
      have hc : c ≠ '\n' := by simpa using hlast
      rw [List.cons_append, List.nil_append, splitlines_cons_of_ne hc,
        splitlines_cons_of_ne hc]
      simp [splitlines_cons_nl, splitlinesPy]
    | cons d s' =>
      have hlast' : (d :: s').getLast? ≠ some '\n' := by
        rwa [List.getLast?_cons_cons] at hlast
      by_cases hc : c = '\n'
      · subst hc
        rw [List.cons_append, splitlines_cons_nl, splitlines_cons_nl,
          ih (by simp) hlast']
      · rw [List.cons_append, splitlines_cons_of_ne hc,
          splitlines_cons_of_ne hc, ih (by simp) hlast']

theorem not_nl_mem_splitlines {t l : List Char} (h : l ∈ splitlinesPy t) :
    '\n' ∉ l := by
  induction t generalizing l with
  | nil => cases h
  | cons c s ih =>
    by_cases hc : c = '\n'
    · subst hc
      rw [splitlines_cons_nl] at h
      rcases List.mem_cons.mp h with h | h
      · subst h; simp
      · exact ih h
    · rw [splitlines_cons_of_ne hc] at h
      cases hs : splitlinesPy s with
      | nil =>
        rw [hs] at h
        simp only [List.mem_singleton] at h
        subst h
        simp [hc, Ne.symm hc]
      | cons m ls =>
        rw [hs] at h
        rcases List.mem_cons.mp h with h | h
        · subst h
          intro hmem
          rcases List.mem_cons.mp hmem with h' | h'
          · exact hc h'.symm
          · exact (ih (l := m) (by rw [hs]; exact List.mem_cons_self m ls)) h'
        · exact ih (by rw [hs]; exact List.mem_cons_of_mem m h)

theorem mem_of_mem_splitlines {t l : List Char} {c : Char}
    (hl : l ∈ splitlinesPy t) (hc : c ∈ l) : c ∈ t := by
  induction t generalizing l with
  | nil => cases hl
  | cons a s ih =>
    by_cases ha : a = '\n'
    · subst ha
      rw [splitlines_cons_nl] at hl
      rcases List.mem_cons.mp hl with h | h
      · subst h; cases hc
      · exact List.mem_cons_of_mem _ (ih h hc)
    · rw [splitlines_cons_of_ne ha] at hl
      cases hs : splitlinesPy s with
      | nil =>
        rw [hs] at hl
        simp only [List.mem_singleton] at hl
        subst hl
        have hca : c = a := by simpa using hc
        subst hca
        exact List.mem_cons_self _ _
      | cons m ls =>
        rw [hs] at hl
        rcases List.mem_cons.mp hl with h | h
        · subst h
          rcases List.mem_cons.mp hc with h' | h'
          · subst h'; exact List.mem_cons_self c s
          · exact List.mem_cons_of_mem _
              (ih (l := m) (by rw [hs]; exact List.mem_cons_self m ls) h')
        · exact List.mem_cons_of_mem _
            (ih (by rw [hs]; exact List.mem_cons_of_mem m h) hc)

theorem mem_splitlines_join {ls : List (List Char)} (h : ∀ l ∈ ls, '\n' ∉ l) :
    ∀ l ∈ splitlinesPy (joinNL ls), l ∈ ls := by
  induction ls with
  | nil => intro l hl; cases hl
  | cons a L ih =>
    cases L with
    | nil =>
      intro l hl
      by_cases hae : a = []
      · subst hae; cases hl
      · rw [show joinNL [a] = a from rfl,
          splitlines_no_nl (fun c hc he => (h a (by simp)) (he ▸ hc)) hae] at hl
        simp only [List.mem_singleton] at hl
        subst hl; simp
    | cons b L' =>
      intro l hl
      rw [joinNL_cons (by simp),
        splitlines_append_nl (fun c hc he => (h a (by simp)) (he ▸ hc))] at hl
      rcases List.mem_cons.mp hl with h1 | h1
      · subst h1; simp
      · exact List.mem_cons_of_mem a
          (ih (fun m hm => h m (List.mem_cons_of_mem a hm)) l h1)

theorem mem_joinNL {ls : List (List Char)} {c : Char} (h : c ∈ joinNL ls) :
    c = '\n' ∨ ∃ l ∈ ls, c ∈ l := by
  induction ls with
  | nil => cases h
  | cons a L ih =>
    cases L with
    | nil =>
      right; exact ⟨a, by simp, h⟩
    | cons b L' =>
      rw [joinNL_cons (by simp)] at h
      rcases List.mem_append.mp h with h | h
      · right; exact ⟨a, by simp, h⟩
      · rcases List.mem_cons.mp h with h | h
        · left; exact h
        · rcases ih h with h | ⟨l, hl, hcl⟩
          · left; exact h
          · right; exact ⟨l, List.mem_cons_of_mem a hl, hcl⟩

theorem stripC_join_splitlines (t : List Char) :
    stripC (joinNL (splitlinesPy t)) = stripC t := by
  rw [join_splitlines]
  by_cases h : t.getLast? = some '\n'
  · rw [if_pos h]
    conv_rhs => rw [← List.dropLast_append_getLast? '\n' h]
    rw [stripC_append_spaces (by intro c hc; simp at hc; subst hc; rfl)]
  · rw [if_neg h]

/-! ### `hasTriple` toolkit -/

theorem hasTriple_cons3 (a b c : Char) (s : List Char) :
    hasTriple (a :: b :: c :: s) =
      ((a = '\n' && b = '\n' && c = '\n') || hasTriple (b :: c :: s)) := rfl

theorem hasTriple_tail {c : Char} {s : List Char}
    (h : hasTriple (c :: s) = false) : hasTriple s = false := by
  cases s with
  | nil => rfl
  | cons b t =>
    cases t with
    | nil => rfl
    | cons d u =>
      rw [hasTriple_cons3] at h
      exact (Bool.or_eq_false_iff.mp h).2

theorem hasTriple_cons_of_ne {c : Char} (hc : c ≠ '\n') (s : List Char) :
    hasTriple (c :: s) = hasTriple s := by
  cases s with
  | nil => rfl
  | cons b t =>
    cases t with
    | nil => rfl
    | cons d u => rw [hasTriple_cons3]; simp [hc]

theorem hasTriple_cons_cons_of_ne {a b : Char} (hb : b ≠ '\n') (s : List Char) :
    hasTriple (a :: b :: s) = hasTriple (b :: s) := by
  cases s with
  | nil => rfl
  | cons d u => rw [hasTriple_cons3]; simp [hb]

theorem hasTriple_append_right {x y : List Char}
    (h : hasTriple (x ++ y) = false) : hasTriple y = false := by
  induction x with
  | nil => exact h
  | cons c x ih => exact ih (hasTriple_tail h)

theorem hasTriple_append_of_left {x : List Char} (h : hasTriple x = true)
    (y : List Char) : hasTriple (x ++ y) = true := by
  induction x with
  | nil => cases h
  | cons c x ih =>
    cases x with
    | nil => cases h
    | cons b t =>
      cases t with
      | nil => cases h
      | cons d u =>
        rw [hasTriple_cons3] at h
        rw [List.cons_append, List.cons_append, List.cons_append,
          hasTriple_cons3]
        rcases Bool.or_eq_true_iff.mp h with h1 | h2
        · simp [h1]
        · have h3 := ih h2
          rw [List.cons_append, List.cons_append] at h3
          simp [h3]

theorem hasTriple_append_left {x y : List Char}
    (h : hasTriple (x ++ y) = false) : hasTriple x = false := by
  by_contra hx
  rw [Bool.not_eq_false] at hx
  rw [hasTriple_append_of_left hx y] at h
  cases h

theorem hasTriple_replicate_ge {n : Nat} (h : 3 ≤ n) :
    hasTriple (List.replicate n '\n') = true := by
  obtain ⟨m, rfl⟩ : ∃ m, n = m + 3 := ⟨n - 3, by omega⟩
  rw [List.replicate_succ, List.replicate_succ, List.replicate_succ,
    hasTriple_cons3]
  simp

theorem hasTriple_replicate_le {n : Nat} (h : n ≤ 2) :
    hasTriple (List.replicate n '\n') = false := by
  interval_cases n <;> rfl

theorem hasTriple_nl_block {k : Nat} {y : List Char} (hk : k ≤ 2)
    (hy0 : y.head? ≠ some '\n') (hy : hasTriple y = false) :
    hasTriple (List.replicate k '\n' ++ y) = false := by
  interval_cases k
  · simpa using hy
  · cases y with
    | nil => rfl
    | cons c t =>
      have hc : c ≠ '\n' := by
        intro h; subst h; exact hy0 rfl
      simpa [hasTriple_cons_cons_of_ne hc] using hy
  · cases y with
    | nil => rfl
    | cons c t =>
      have hc : c ≠ '\n' := by
        intro h; subst h; exact hy0 rfl
      rw [show List.replicate 2 '\n' ++ c :: t = '\n' :: '\n' :: c :: t from rfl,
        hasTriple_cons3, hasTriple_cons_cons_of_ne hc]
      simp [hc, hy]

theorem hasTriple_no_nl_append {a : List Char} (ha : ∀ c ∈ a, c ≠ '\n')
    (y : List Char) : hasTriple (a ++ y) = hasTriple y := by
  induction a with
  | nil => rfl
  | cons c a ih =>
    rw [List.cons_append, hasTriple_cons_of_ne (ha c (List.mem_cons_self c a)),
      ih (fun d hd => ha d (List.mem_cons_of_mem c hd))]

theorem hasTriple_no_nl {a : List Char} (ha : ∀ c ∈ a, c ≠ '\n') :
    hasTriple a = false := by
  have := hasTriple_no_nl_append ha []
  simpa using this

/-! ### `collapseBlanks` toolkit -/

theorem collapseGo_nil (n : Nat) : collapseGo n [] = emitNL n := rfl

theorem collapseGo_cons_nl (n : Nat) (s : List Char) :
    collapseGo n ('\n' :: s) = collapseGo (n + 1) s := by
  simp [collapseGo]

theorem collapseGo_cons_of_ne {c : Char} (hc : c ≠ '\n') (n : Nat)
    (s : List Char) : collapseGo n (c :: s) = emitNL n ++ c :: collapseGo 0 s := by
  simp [collapseGo, hc]

theorem emitNL_zero : emitNL 0 = [] := rfl

theorem collapseGo_no_nl_append {a : List Char} (ha : ∀ c ∈ a, c ≠ '\n')
    (r : List Char) : collapseGo 0 (a ++ r) = a ++ collapseGo 0 r := by
  induction a with
  | nil => rfl
  | cons c a ih =>
    rw [List.cons_append, collapseGo_cons_of_ne (ha c (List.mem_cons_self c a)),
      emitNL_zero, List.nil_append, List.cons_append,
      ih (fun d hd => ha d (List.mem_cons_of_mem c hd))]

theorem collapseBlanks_no_nl {a : List Char} (ha : ∀ c ∈ a, c ≠ '\n') :
    collapseBlanks a = a := by
  unfold collapseBlanks
  have := collapseGo_no_nl_append ha []
  simpa [collapseGo_nil, emitNL_zero] using this

theorem collapseGo_pending (j : Nat) (s : List Char) : ∀ n,
    collapseGo n (List.replicate j '\n' ++ s) = collapseGo (n + j) s := by
  induction j with
  | zero => intro n; simp
  | succ j ih =>
    intro n
    rw [List.replicate_succ, List.cons_append, collapseGo_cons_nl, ih]
    congr 1
    omega

theorem collapseGo_emit {s : List Char} (hs : s.head? ≠ some '\n') (m : Nat) :
    collapseGo m s = emitNL m ++ collapseGo 0 s := by
  cases s with
  | nil => simp [collapseGo_nil, emitNL_zero]
  | cons c t =>
    have hc : c ≠ '\n' := by
      intro h; subst h; exact hs rfl
    rw [collapseGo_cons_of_ne hc, collapseGo_cons_of_ne hc, emitNL_zero,
      List.nil_append]

theorem hasTriple_collapseGo (t : List Char) : ∀ n,
    hasTriple (collapseGo n t) = false := by
  induction t with
  | nil =>
    intro n
    rw [collapseGo_nil]
    unfold emitNL
    exact hasTriple_replicate_le (by split <;> omega)
  | cons c s ih =>
    intro n
    by_cases hc : c = '\n'
    · subst hc; rw [collapseGo_cons_nl]; exact ih (n + 1)
    · rw [collapseGo_cons_of_ne hc]
      have hy : hasTriple (c :: collapseGo 0 s) = false := by
        rw [hasTriple_cons_of_ne hc]; exact ih 0
      unfold emitNL
      exact hasTriple_nl_block (by split <;> omega) (by simp [hc]) hy

theorem hasTriple_collapseBlanks (t : List Char) :
    hasTriple (collapseBlanks t) = false :=
  hasTriple_collapseGo t 0

theorem collapseGo_eq_self {t : List Char} : ∀ n,
    hasTriple (List.replicate n '\n' ++ t) = false →
    collapseGo n t = List.replicate n '\n' ++ t := by
  induction t with
  | nil =>
    intro n h
    rw [collapseGo_nil]
    unfold emitNL
    have hn : n ≤ 2 := by
      by_contra hgt
      rw [List.append_nil, hasTriple_replicate_ge (by omega)] at h
      cases h
    rw [if_neg (by omega)]
    simp
  | cons c s ih =>
    intro n h
    by_cases hc : c = '\n'
    · subst hc
      rw [collapseGo_cons_nl, ih (n + 1) (by rw [List.replicate_succ']; simpa using h)]
      rw [List.replicate_succ']
      simp
    · rw [collapseGo_cons_of_ne hc]
      have hn : n ≤ 2 := by
        by_contra hgt
        rw [hasTriple_append_of_left (hasTriple_replicate_ge (by omega)) (c :: s)] at h
        cases h
      unfold emitNL
      rw [if_neg (by omega)]
      congr 2
      have hs : hasTriple s = false := by
        have h2 := hasTriple_append_right h
        exact hasTriple_tail h2
      have := ih 0 (by simpa using hs)
      simpa using this

theorem collapseBlanks_eq_self {t : List Char} (h : hasTriple t = false) :
    collapseBlanks t = t := by
  unfold collapseBlanks
  have := collapseGo_eq_self 0 (t := t) (by simpa using h)
  simpa using this

theorem splitlines_replicate_append (m : Nat) (y : List Char) :
    splitlinesPy (List.replicate m '\n' ++ y) =
      List.replicate m [] ++ splitlinesPy y := by
  induction m with
  | zero => simp
  | succ m ih =>
    rw [List.replicate_succ, List.cons_append, splitlines_cons_nl, ih,
      List.replicate_succ, List.cons_append]

theorem pred_lines_collapseGo (P : List Char → Prop) (hP : P []) :
    ∀ (N : Nat) (t : List Char), t.length ≤ N →
      (∀ l ∈ splitlinesPy t, P l) →
      ∀ l ∈ splitlinesPy (collapseBlanks t), P l := by
  intro N
  induction N with
  | zero =>
    intro t htlen hlines l hl
    have ht : t = [] := List.eq_nil_of_length_eq_zero (by omega)
    subst ht
    cases hl
  | succ N ih =>
    intro t htlen hlines l hl
    have hdecomp := List.takeWhile_append_dropWhile (p := fun c => c != '\n') (l := t)
    have hafree : ∀ c ∈ t.takeWhile (fun c => c != '\n'), c ≠ '\n' := by
      intro c hc
      have := List.mem_takeWhile_imp hc
      simpa using this
    cases hdrop : t.dropWhile (fun c => c != '\n') with
    | nil =>
      rw [hdrop, List.append_nil] at hdecomp
      rw [← hdecomp, collapseBlanks_no_nl hafree] at hl
      rw [← hdecomp] at hlines
      exact hlines l hl
    | cons c0 s =>
      have hc0 : c0 = '\n' := by
        have hne : t.dropWhile (fun c => c != '\n') ≠ [] := by rw [hdrop]; simp
        have h1 := List.head_dropWhile_not (fun c => c != '\n') t hne
        have h2 : (t.dropWhile (fun c => c != '\n')).head? = some c0 := by
          rw [hdrop]; rfl
        rw [List.head?_eq_head hne] at h2
        simp only [Option.some.injEq] at h2
        rw [h2] at h1
        simpa using h1
      subst hc0
      -- t = a ++ '\n' :: s  with a newline-free
      have ht : t = t.takeWhile (fun c => c != '\n') ++ '\n' :: s := by
        rw [← hdrop]; exact hdecomp.symm
      -- split s into its leading newline run and the rest
      have hsdecomp := List.takeWhile_append_dropWhile (p := fun c => c = '\n') (l := s)
      have hsrep : s.takeWhile (fun c => c = '\n') =
          List.replicate (s.takeWhile (fun c => c = '\n')).length '\n' := by
        rw [List.eq_replicate_iff]
        exact ⟨rfl, fun b hb => by simpa using List.mem_takeWhile_imp hb⟩
      have hs'head : (s.dropWhile (fun c => c = '\n')).head? ≠ some '\n' := by
        intro hcontra
        have hne : s.dropWhile (fun c => c = '\n') ≠ [] := by
          intro h0; rw [h0] at hcontra; cases hcontra
        have := List.head_dropWhile_not (fun c => c = '\n') s hne
        rw [List.head?_eq_head hne] at hcontra
        simp only [Option.some.injEq] at hcontra
        rw [hcontra] at this
        simp at this
      set a := t.takeWhile (fun c => c != '\n') with hadef
      set j := (s.takeWhile (fun c => c = '\n')).length with hjdef
      set s' := s.dropWhile (fun c => c = '\n') with hs'def
      have hs : s = List.replicate j '\n' ++ s' := by
        conv_lhs => rw [← hsdecomp]
        rw [← hsrep]
      -- rewrite the collapsed text
      have hcb : collapseBlanks t =
          a ++ List.replicate (if 3 ≤ 1 + j then 2 else 1 + j) '\n' ++
            collapseGo 0 s' := by
        rw [ht, hs]
        unfold collapseBlanks
        rw [collapseGo_no_nl_append hafree, collapseGo_cons_nl,
          collapseGo_pending, collapseGo_emit hs'head]
        unfold emitNL
        rw [show (1 : Nat) + j = 0 + 1 + j by omega, List.append_assoc]
      obtain ⟨k', hk'⟩ : ∃ k', (if 3 ≤ 1 + j then 2 else 1 + j) = k' + 1 :=
        ⟨(if 3 ≤ 1 + j then 2 else 1 + j) - 1, by split <;> omega⟩
      -- lines of the collapsed text
      have hsl : splitlinesPy (collapseBlanks t) =
          a :: (List.replicate k' [] ++ splitlinesPy (collapseGo 0 s')) := by
        rw [hcb, hk', List.replicate_succ, List.append_assoc, List.cons_append,
          splitlines_append_nl hafree, splitlines_replicate_append]
      -- lines of the original text
      have hlt : ∀ l ∈ splitlinesPy s', P l := by
        intro m hm
        apply hlines
        rw [ht, splitlines_append_nl hafree, hs, splitlines_replicate_append]
        exact List.mem_cons_of_mem a (List.mem_append_right _ hm)
      have hPa : P a := by
        apply hlines
        rw [ht, splitlines_append_nl hafree]
        exact List.mem_cons_self a _
      rw [hsl] at hl
      rcases List.mem_cons.mp hl with h1 | h1
      · subst h1; exact hPa
      · rcases List.mem_append.mp h1 with h2 | h2
        · rw [List.eq_of_mem_replicate h2]; exact hP
        · have hlen' : s'.length ≤ N := by
            have e1 : t.length = a.length + (s.length + 1) := by rw [ht]; simp
            have e2 : s.length = j + s'.length := by rw [hs]; simp
            omega
          exact ih s' hlen' hlt l h2

theorem pred_lines_collapseBlanks (P : List Char → Prop) (hP : P [])
    {t : List Char} (ht : ∀ l ∈ splitlinesPy t, P l) :
    ∀ l ∈ splitlinesPy (collapseBlanks t), P l :=
  pred_lines_collapseGo P hP t.length t le_rfl ht

/-! ### Per-line substitution toolkit -/

theorem mem_attrRegion {c : Char} {restRev : List Char}
    (h : c ∈ attrRegion restRev) : c ∈ restRev :=
  (List.takeWhile_sublist _).subset (List.mem_reverse.mp h)

theorem mem_attrSub {c : Char} {l : List Char} (h : c ∈ attrSub l) : c ∈ l := by
  unfold attrSub at h
  split at h
  next restRev heq =>
    have hrest : ∀ d, d ∈ restRev → d ∈ l := by
      intro d hd
      apply mem_rstripC (s := l)
      rw [← List.mem_reverse, heq]
      exact List.mem_cons_of_mem _ hd
    split at h
    · have h1 := mem_rstripC h
      rcases List.mem_append.mp h1 with h2 | h2
      · exact hrest c (List.mem_reverse.mp (List.take_subset _ _ h2))
      · exact hrest c (mem_attrRegion ((List.takeWhile_sublist _).subset h2))
    · exact h
  next => exact h

theorem attrSub_no_brace {l : List Char} (h : '\x7b' ∉ l) : attrSub l = l := by
  unfold attrSub
  split
  next restRev heq =>
    rw [if_neg]
    intro hcon
    have h3 := mem_attrRegion hcon
    apply h
    apply mem_rstripC (s := l)
    rw [← List.mem_reverse, heq]
    exact List.mem_cons_of_mem _ h3
  next => rfl

theorem tagSubF_no_lt {s : List Char} (h : '<' ∉ s) :
    ∀ fuel, tagSubF fuel s = s := by
  induction s with
  | nil => intro fuel; cases fuel <;> rfl
  | cons c rest ih =>
    intro fuel
    cases fuel with
    | zero => rfl
    | succ fuel =>
      have hc : c ≠ '<' := fun he => h (he ▸ List.mem_cons_self c rest)
      simp only [tagSubF, hc, if_false, reduceIte]
      rw [ih (fun hm => h (List.mem_cons_of_mem c hm)) fuel]

theorem tagSub_no_lt {s : List Char} (h : '<' ∉ s) : tagSub s = s :=
  tagSubF_no_lt h s.length

theorem tagSubF_zero (s : List Char) : tagSubF 0 s = s := by
  cases s <;> rfl

theorem mem_tagSubF {c : Char} :
    ∀ (fuel : Nat) (s : List Char), c ∈ tagSubF fuel s → c ∈ s := by
  intro fuel
  induction fuel with
  | zero => intro s h; rwa [tagSubF_zero] at h
  | succ fuel ih =>
    intro s h
    cases s with
    | nil => cases h
    | cons a rest =>
      simp only [tagSubF] at h
      by_cases ha : a = '<'
      · rw [if_pos ha] at h
        cases htag : tagAfterLt rest with
        | some n =>
          rw [htag] at h
          exact List.mem_cons_of_mem a (List.drop_subset n rest (ih _ h))
        | none =>
          rw [htag] at h
          rcases List.mem_cons.mp h with h1 | h1
          · subst h1; rw [ha]; exact List.mem_cons_self _ _
          · exact List.mem_cons_of_mem a (ih _ h1)
      · rw [if_neg ha] at h
        rcases List.mem_cons.mp h with h1 | h1
        · subst h1; exact List.mem_cons_self _ _
        · exact List.mem_cons_of_mem a (ih _ h1)

theorem mem_tagSub {c : Char} {s : List Char} (h : c ∈ tagSub s) : c ∈ s :=
  mem_tagSubF s.length s h

theorem mem_collapseGo {c : Char} :
    ∀ (t : List Char) (n : Nat), c ∈ collapseGo n t → c ∈ t ∨ c = '\n' := by
  intro t
  induction t with
  | nil =>
    intro n h
    right
    rw [collapseGo_nil] at h
    unfold emitNL at h
    exact List.eq_of_mem_replicate h
  | cons a s ih =>
    intro n h
    by_cases ha : a = '\n'
    · subst ha
      rw [collapseGo_cons_nl] at h
      rcases ih (n + 1) h with h1 | h1
      · exact Or.inl (List.mem_cons_of_mem _ h1)
      · exact Or.inr h1
    · rw [collapseGo_cons_of_ne ha] at h
      rcases List.mem_append.mp h with h1 | h1
      · right
        unfold emitNL at h1
        exact List.eq_of_mem_replicate h1
      · rcases List.mem_cons.mp h1 with h2 | h2
        · left; subst h2; exact List.mem_cons_self _ _
        · rcases ih 0 h2 with h3 | h3
          · exact Or.inl (List.mem_cons_of_mem _ h3)
          · exact Or.inr h3

/-! ### `fencedB` toolkit -/

theorem fencedB_cons_space {c : Char} (hc : isSpaceC c = true) (l : List Char) :
    fencedB (c :: l) = fencedB l := by
  unfold fencedB
  rw [List.dropWhile_cons, if_pos hc]

theorem takeWhile_length_eq_iff {p : Char → Bool} {s : List Char} :
    (s.takeWhile p).length = s.length ↔ s.dropWhile p = [] := by
  have hsum := congrArg List.length (List.takeWhile_append_dropWhile (p := p) (l := s))
  rw [List.length_append] at hsum
  constructor
  · intro h
    have : (s.dropWhile p).length = 0 := by omega
    exact List.eq_nil_of_length_eq_zero this
  · intro h
    rw [h] at hsum
    simpa using hsum

theorem fencedB_append_spaces {z : List Char} (hz : ∀ c ∈ z, isSpaceC c = true)
    (t : List Char) : fencedB (t ++ z) = fencedB t := by
  unfold fencedB
  by_cases h1 : t.dropWhile isSpaceC = []
  · have hz1 : (t ++ z).dropWhile isSpaceC = [] := by
      rw [List.dropWhile_eq_nil_iff]
      intro x hx
      rcases List.mem_append.mp hx with h | h
      · exact (List.dropWhile_eq_nil_iff.mp h1) x h
      · exact hz x h
    rw [hz1, h1]
  · have heq : (t ++ z).dropWhile isSpaceC = t.dropWhile isSpaceC ++ z := by
      rw [List.dropWhile_append]
      simp [List.isEmpty_iff, h1]
    rw [heq]
    set s1 := t.dropWhile isSpaceC with hs1
    have hzc : z.takeWhile (fun c => c = ':') = [] := by
      cases z with
      | nil => rfl
      | cons w zz =>
        rw [List.takeWhile_cons, if_neg]
        intro hw
        have := hz w (List.mem_cons_self w zz)
        rw [of_decide_eq_true hw] at this
        simp [isSpaceC] at this
    by_cases h2 : s1.dropWhile (fun c => c = ':') = []
    · have htake : s1.takeWhile (fun c => c = ':') = s1 := by
        have := List.takeWhile_append_dropWhile (p := fun c => c = ':') (l := s1)
        rw [h2, List.append_nil] at this
        exact this
      have htakez : (s1 ++ z).takeWhile (fun c => c = ':') = s1 := by
        rw [List.takeWhile_append, if_pos (by rw [htake]), hzc, List.append_nil]
      have hdropz : (s1 ++ z).dropWhile (fun c => c = ':') = z := by
        rw [List.dropWhile_append]
        simp only [h2, List.isEmpty_nil, if_true]
        rw [List.dropWhile_eq_self_iff]
        intro hl hp
        have := hz (z.get ⟨0, hl⟩) (List.get_mem z 0 hl)
        rw [of_decide_eq_true hp] at this
        simp [isSpaceC] at this
      rw [htakez, htake, hdropz, h2]
      have hze : z.dropWhile isSpaceC = [] :=
        List.dropWhile_eq_nil_iff.mpr (fun x hx => hz x hx)
      rw [hze]
      simp
    · have hlen : ¬ (s1.takeWhile (fun c => c = ':')).length = s1.length := by
        rw [takeWhile_length_eq_iff]
        exact h2
      have htakez : (s1 ++ z).takeWhile (fun c => c = ':') =
          s1.takeWhile (fun c => c = ':') := by
        rw [List.takeWhile_append, if_neg hlen]
      have hdropz : (s1 ++ z).dropWhile (fun c => c = ':') =
          s1.dropWhile (fun c => c = ':') ++ z := by
        rw [List.dropWhile_append]
        simp [List.isEmpty_iff, h2]
      rw [htakez, hdropz]
      set r := s1.dropWhile (fun c => c = ':') with hr
      by_cases h3 : r.dropWhile isSpaceC = []
      · have hz3 : (r ++ z).dropWhile isSpaceC = [] := by
          rw [List.dropWhile_eq_nil_iff]
          intro x hx
          rcases List.mem_append.mp hx with h | h
          · exact (List.dropWhile_eq_nil_iff.mp h3) x h
          · exact hz x h
        rw [hz3, h3]
      · have heq3 : (r ++ z).dropWhile isSpaceC = r.dropWhile isSpaceC ++ z := by
          rw [List.dropWhile_append]
          simp [List.isEmpty_iff, h3]
        rw [heq3]
        set s3 := r.dropWhile isSpaceC with hs3
        cases hs3c : s3 with
        | nil => exact absurd hs3c h3
        | cons w ws =>
          congr 1
          unfold fencedTail
          simp only [List.cons_append, List.head?_cons, List.isEmpty_cons,
            List.drop_one, List.tail_cons]
          rw [rstripC_append_spaces hz]

theorem fencedB_rstripC (l : List Char) : fencedB (rstripC l) = fencedB l := by
  obtain ⟨z, hz, hzsp⟩ := rstripC_decomp l
  conv_rhs => rw [hz]
  rw [fencedB_append_spaces hzsp]

/-! ### `blankNormalize` and the pipeline shape -/

theorem blankNormalize_of_rstripped {t : List Char}
    (h : ∀ l ∈ splitlinesPy t, rstripC l = l) :
    blankNormalize t = joinNL (splitlinesPy t) := by
  have hmap : ∀ ls : List (List Char), (∀ l ∈ ls, rstripC l = l) →
      ls.map (fun l => if l.all isSpaceC then [] else l) = ls := by
    intro ls hls
    induction ls with
    | nil => rfl
    | cons a L ih =>
      rw [List.map_cons, ih (fun m hm => hls m (List.mem_cons_of_mem a hm))]
      congr 1
      by_cases ha : a.all isSpaceC
      · rw [if_pos ha]
        have hnil : rstripC a = [] :=
          rstripC_eq_nil_iff.mpr (fun c hc => (List.all_eq_true.mp ha) c hc)
        rw [← hls a (List.mem_cons_self a L), hnil]
      · rw [if_neg ha]
  unfold blankNormalize
  rw [hmap _ h]

theorem mem_processLines {ls : List (List Char)} {l : List Char}
    (h : l ∈ processLines ls) :
    ∃ l0 ∈ ls, fencedB l0 = false ∧ l = rstripC (tagSub (attrSub l0)) := by
  induction ls with
  | nil => cases h
  | cons a L ih =>
    unfold processLines at h
    by_cases ha : fencedB a
    · rw [if_pos ha] at h
      obtain ⟨l0, h1, h2, h3⟩ := ih h
      exact ⟨l0, List.mem_cons_of_mem a h1, h2, h3⟩
    · rw [if_neg ha] at h
      rcases List.mem_cons.mp h with h1 | h1
      · exact ⟨a, List.mem_cons_self a L, by simpa using ha, h1⟩
      · obtain ⟨l0, h2, h3, h4⟩ := ih h1
        exact ⟨l0, List.mem_cons_of_mem a h2, h3, h4⟩

theorem processLines_lines_rstripped {x : List Char} :
    ∀ l ∈ processLines (splitlinesPy x), rstripC l = l ∧ '\n' ∉ l := by
  intro l hl
  obtain ⟨l0, h1, h2, h3⟩ := mem_processLines hl
  refine ⟨by rw [h3]; exact rstripC_idem _, ?_⟩
  intro hm
  exact not_nl_mem_splitlines h1
    (mem_attrSub (mem_tagSub (mem_rstripC (h3 ▸ hm))))

theorem clean_markdown_eq (x : List Char) :
    clean_markdown x =
      stripC (collapseBlanks (joinNL (processLines (splitlinesPy x)))) ++
        ['\n'] := by
  show stripC (blankNormalize (collapseBlanks
      (joinNL (processLines (splitlinesPy x))))) ++ ['\n'] = _
  congr 1
  have hlines1 : ∀ l ∈
      splitlinesPy (joinNL (processLines (splitlinesPy x))), rstripC l = l := by
    intro l hl
    have hmem := mem_splitlines_join
      (fun m hm => (processLines_lines_rstripped m hm).2) l hl
    exact (processLines_lines_rstripped l hmem).1
  have hlines2 := pred_lines_collapseBlanks (fun l => rstripC l = l) rfl hlines1
  rw [blankNormalize_of_rstripped hlines2, stripC_join_splitlines]

theorem clean_markdown_mem {x : List Char} {c : Char}
    (h : c ∈ clean_markdown x) : c ∈ x ∨ c = '\n' := by
  rw [clean_markdown_eq] at h
  rcases List.mem_append.mp h with h1 | h1
  · rcases mem_collapseGo _ 0 (mem_stripC h1) with h2 | h2
    · rcases mem_joinNL h2 with h3 | ⟨l, hl, hcl⟩
      · exact Or.inr h3
      · obtain ⟨l0, h4, h5, h6⟩ := mem_processLines hl
        exact Or.inl (mem_of_mem_splitlines h4
          (mem_attrSub (mem_tagSub (mem_rstripC (h6 ▸ hcl)))))
    · exact Or.inr h2
  · simp only [List.mem_singleton] at h1
    exact Or.inr h1

/-! ### `goodLine` preservation -/

theorem goodLine_nil : goodLine [] := by
  refine ⟨rfl, by decide, by simp, by simp, by simp⟩

theorem goodLine_rstripC {l : List Char} (h : goodLine l) : goodLine (rstripC l) := by
  obtain ⟨h1, h2, h3, h4, h5⟩ := h
  exact ⟨rstripC_idem l, by rw [fencedB_rstripC]; exact h2,
    fun hm => h3 (mem_rstripC hm), fun hm => h4 (mem_rstripC hm),
    fun hm => h5 (mem_rstripC hm)⟩

theorem goodLine_cons_space {c : Char} {l : List Char} (hc : isSpaceC c = true)
    (h : goodLine (c :: l)) : goodLine l := by
  obtain ⟨h1, h2, h3, h4, h5⟩ := h
  refine ⟨?_, ?_, fun hm => h3 (List.mem_cons_of_mem c hm),
    fun hm => h4 (List.mem_cons_of_mem c hm),
    fun hm => h5 (List.mem_cons_of_mem c hm)⟩
  · cases l with
    | nil => rfl
    | cons d l' =>
      obtain ⟨e, he, hes⟩ := getLast?_not_space_of_rstripC_self h1 (by simp)
      rw [List.getLast?_cons_cons] at he
      exact rstripC_eq_self_of he hes
  · rw [← fencedB_cons_space hc]
    exact h2

theorem pred_lines_lstripC (P : List Char → Prop)
    (hPc : ∀ (c : Char) (l : List Char), isSpaceC c = true → P (c :: l) → P l)
    {t : List Char} (h : ∀ l ∈ splitlinesPy t, P l) :
    ∀ l ∈ splitlinesPy (lstripC t), P l := by
  induction t with
  | nil => intro l hl; cases hl
  | cons c s ih =>
    by_cases hcs : isSpaceC c = true
    · by_cases hc : c = '\n'
      · subst hc
        have hlt : lstripC ('\n' :: s) = lstripC s := by
          unfold lstripC
          rw [List.dropWhile_cons, if_pos (by decide)]
        rw [hlt]
        apply ih
        intro m hm
        exact h m (by rw [splitlines_cons_nl]; exact List.mem_cons_of_mem _ hm)
      · have hlt : lstripC (c :: s) = lstripC s := by
          unfold lstripC
          rw [List.dropWhile_cons, if_pos hcs]
        rw [hlt]
        apply ih
        intro m hm
        rw [splitlines_cons_of_ne hc] at h
        cases hs : splitlinesPy s with
        | nil => rw [hs] at hm; cases hm
        | cons a L =>
          rw [hs] at h hm
          rcases List.mem_cons.mp hm with h1 | h1
          · subst h1
            exact hPc c m hcs (h (c :: m) (List.mem_cons_self _ _))
          · exact h m (List.mem_cons_of_mem _ h1)
    · have hlt : lstripC (c :: s) = c :: s := by
        unfold lstripC
        rw [List.dropWhile_cons, if_neg hcs]
      rw [hlt]
      exact h

theorem rstripC_cons_of_ne {c : Char} {s : List Char} (h : rstripC s ≠ []) :
    rstripC (c :: s) = c :: rstripC s := by
  have := rstripC_append_left h [c]
  simpa using this

theorem pred_lines_rstripC_aux (P : List Char → Prop)
    (hPr : ∀ l : List Char, P l → P (rstripC l)) :
    ∀ (N : Nat) (t : List Char), t.length ≤ N →
    (∀ l ∈ splitlinesPy t, P l) →
    ∀ l ∈ splitlinesPy (rstripC t), P l := by
  intro N
  induction N with
  | zero =>
    intro t htlen hlines l hl
    have ht : t = [] := List.eq_nil_of_length_eq_zero (by omega)
    subst ht
    cases hl
  | succ N ih =>
    intro t htlen hlines l hl
    have hdecomp := List.takeWhile_append_dropWhile (p := fun c => c != '\n') (l := t)
    have hafree : ∀ c ∈ t.takeWhile (fun c => c != '\n'), c ≠ '\n' := by
      intro c hc
      have := List.mem_takeWhile_imp hc
      simpa using this
    set a := t.takeWhile (fun c => c != '\n') with hadef
    have hgoodnl : ∀ (u : List Char), (∀ c ∈ u, c ≠ '\n') → P u →
        ∀ m ∈ splitlinesPy (rstripC u), P m := by
      intro u hufree hugood m hm
      by_cases hue : rstripC u = []
      · rw [hue] at hm; cases hm
      · rw [splitlines_no_nl (fun c hc => hufree c (mem_rstripC hc)) hue] at hm
        simp only [List.mem_singleton] at hm
        subst hm
        exact hPr u hugood
    cases hdrop : t.dropWhile (fun c => c != '\n') with
    | nil =>
      rw [hdrop, List.append_nil] at hdecomp
      rw [← hdecomp] at hlines hl
      by_cases hae : a = []
      · rw [hae] at hl; cases hl
      · exact hgoodnl a hafree
          (hlines a (by rw [splitlines_no_nl hafree hae]; simp)) l hl
    | cons c0 s =>
      have hc0 : c0 = '\n' := by
        have hne : t.dropWhile (fun c => c != '\n') ≠ [] := by rw [hdrop]; simp
        have h1 := List.head_dropWhile_not (fun c => c != '\n') t hne
        have h2 : (t.dropWhile (fun c => c != '\n')).head? = some c0 := by
          rw [hdrop]; rfl
        rw [List.head?_eq_head hne] at h2
        simp only [Option.some.injEq] at h2
        rw [h2] at h1
        simpa using h1
      subst hc0
      have ht : t = a ++ '\n' :: s := by rw [← hdrop]; exact hdecomp.symm
      have hlines' : ∀ m ∈ splitlinesPy s, P m := by
        intro m hm
        apply hlines
        rw [ht, splitlines_append_nl hafree]
        exact List.mem_cons_of_mem a hm
      have hgooda : P a := by
        apply hlines
        rw [ht, splitlines_append_nl hafree]
        exact List.mem_cons_self a _
      by_cases hse : rstripC ('\n' :: s) = []
      · have hspz : ∀ c ∈ '\n' :: s, isSpaceC c = true := rstripC_eq_nil_iff.mp hse
        have hrt : rstripC t = rstripC a := by
          rw [ht]; exact rstripC_append_spaces hspz a
        rw [hrt] at hl
        exact hgoodnl a hafree hgooda l hl
      · have hsne : rstripC s ≠ [] := by
          intro h0
          apply hse
          rw [rstripC_eq_nil_iff] at h0 ⊢
          intro c hc
          rcases List.mem_cons.mp hc with h1 | h1
          · subst h1; rfl
          · exact h0 c h1
        have hrt : rstripC t = a ++ '\n' :: rstripC s := by
          rw [ht, rstripC_append_left hse a, rstripC_cons_of_ne hsne]
        rw [hrt, splitlines_append_nl hafree] at hl
        rcases List.mem_cons.mp hl with h1 | h1
        · subst h1; exact hgooda
        · have hslen : s.length ≤ N := by
            have e1 : t.length = a.length + (s.length + 1) := by rw [ht]; simp
            omega
          exact ih s hslen hlines' l h1

theorem pred_lines_stripC (P : List Char → Prop)
    (hPc : ∀ (c : Char) (l : List Char), isSpaceC c = true → P (c :: l) → P l)
    (hPr : ∀ l : List Char, P l → P (rstripC l))
    {t : List Char} (h : ∀ l ∈ splitlinesPy t, P l) :
    ∀ l ∈ splitlinesPy (stripC t), P l :=
  pred_lines_rstripC_aux P hPr (lstripC t).length (lstripC t) le_rfl
    (pred_lines_lstripC P hPc h)

theorem goodLines_stripC {t : List Char}
    (h : ∀ l ∈ splitlinesPy t, goodLine l) :
    ∀ l ∈ splitlinesPy (stripC t), goodLine l :=
  pred_lines_stripC goodLine (fun c l hc hg => goodLine_cons_space hc hg)
    (fun l hg => goodLine_rstripC hg) h

theorem hasTriple_stripC {t : List Char} (h : hasTriple t = false) :
    hasTriple (stripC t) = false := by
  have h1 : hasTriple (lstripC t) = false := by
    obtain ⟨z, hz, -⟩ := lstripC_decomp t
    exact hasTriple_append_right (by rw [← hz]; exact h)
  obtain ⟨z, hz, -⟩ := rstripC_decomp (lstripC t)
  unfold stripC
  exact hasTriple_append_left (y := z) (by rw [← hz]; exact h1)

/-! ### The fixed point of `clean_markdown` -/

theorem processLines_of_good {ls : List (List Char)}
    (h : ∀ l ∈ ls, goodLine l) : processLines ls = ls := by
  induction ls with
  | nil => rfl
  | cons a L ih =>
    obtain ⟨h1, h2, h3, h4, h5⟩ := h a (List.mem_cons_self a L)
    unfold processLines
    rw [if_neg (by simp [h2]), attrSub_no_brace h4, tagSub_no_lt h5, h1,
      ih (fun m hm => h m (List.mem_cons_of_mem a hm))]

theorem clean_markdown_fixed {b : List Char} (hstrip : stripC b = b)
    (htrip : hasTriple b = false)
    (hlines : ∀ l ∈ splitlinesPy b, goodLine l) :
    clean_markdown (b ++ ['\n']) = b ++ ['\n'] := by
  by_cases hbe : b = []
  · subst hbe; decide
  · have hlast : b.getLast? ≠ some '\n' := by
      obtain ⟨c, hc, hcs⟩ := stripC_getLast?_not_space (by rw [hstrip]; exact hbe)
      rw [hstrip] at hc
      intro hcon
      rw [hcon] at hc
      simp only [Option.some.injEq] at hc
      subst hc
      simp [isSpaceC] at hcs
    show stripC (blankNormalize (collapseBlanks (joinNL (processLines
        (splitlinesPy (b ++ ['\n'])))))) ++ ['\n'] = b ++ ['\n']
    rw [splitlines_concat_nl hbe hlast, processLines_of_good hlines,
      join_splitlines, if_neg hlast, collapseBlanks_eq_self htrip,
      blankNormalize_of_rstripped (fun l hl => (hlines l hl).1),
      join_splitlines, if_neg hlast, hstrip]

theorem clean_markdown_good {x : List Char} (hb : '\x7b' ∉ x) (hl : '<' ∉ x) :
    ∀ l ∈ splitlinesPy (stripC (collapseBlanks
      (joinNL (processLines (splitlinesPy x))))), goodLine l := by
  have hls1 : ∀ l ∈ processLines (splitlinesPy x), goodLine l := by
    intro l hmem
    obtain ⟨l0, h1, h2, h3⟩ := mem_processLines hmem
    have hb0 : '\x7b' ∉ l0 := fun hm => hb (mem_of_mem_splitlines h1 hm)
    have hl0 : '<' ∉ l0 := fun hm => hl (mem_of_mem_splitlines h1 hm)
    rw [attrSub_no_brace hb0, tagSub_no_lt hl0] at h3
    subst h3
    exact ⟨rstripC_idem l0, by rw [fencedB_rstripC]; exact h2,
      fun hm => not_nl_mem_splitlines h1 (mem_rstripC hm),
      fun hm => hb0 (mem_rstripC hm), fun hm => hl0 (mem_rstripC hm)⟩
  have ht1 : ∀ l ∈ splitlinesPy (joinNL (processLines (splitlinesPy x))),
      goodLine l := by
    intro l hmem
    exact hls1 l (mem_splitlines_join (fun m hm => (hls1 m hm).2.2.1) l hmem)
  exact goodLines_stripC (pred_lines_collapseBlanks goodLine goodLine_nil ht1)

/-! ### Further strip / collapse / join toolkit -/

theorem rstripC_self_tail {c : Char} {l : List Char}
    (h : rstripC (c :: l) = c :: l) : rstripC l = l := by
  cases l with
  | nil => rfl
  | cons d l' =>
    obtain ⟨e, he, hes⟩ := getLast?_not_space_of_rstripC_self h (by simp)
    rw [List.getLast?_cons_cons] at he
    exact rstripC_eq_self_of he hes

theorem takeWhile_eq_self_of_all {p : Char → Bool} {u : List Char}
    (h : ∀ c ∈ u, p c = true) : u.takeWhile p = u := by
  induction u with
  | nil => rfl
  | cons c u ih =>
    rw [List.takeWhile_cons, if_pos (h c (List.mem_cons_self c u)),
      ih (fun d hd => h d (List.mem_cons_of_mem c hd))]

theorem takeWhile_append_of_all {p : Char → Bool} {u : List Char}
    (h : ∀ c ∈ u, p c = true) (v : List Char) :
    (u ++ v).takeWhile p = u ++ v.takeWhile p := by
  rw [List.takeWhile_append, if_pos (by rw [takeWhile_eq_self_of_all h])]

theorem dropWhile_append_of_all {p : Char → Bool} {u : List Char}
    (h : ∀ c ∈ u, p c = true) (v : List Char) :
    (u ++ v).dropWhile p = v.dropWhile p := by
  rw [List.dropWhile_append]
  have hu : u.dropWhile p = [] := List.dropWhile_eq_nil_iff.mpr h
  simp [hu]

theorem lstripC_spaces_append {z : List Char} (hz : ∀ c ∈ z, isSpaceC c = true)
    (w : List Char) : lstripC (z ++ w) = lstripC w :=
  dropWhile_append_of_all hz w

theorem stripC_spaces {z : List Char} (hz : ∀ c ∈ z, isSpaceC c = true) :
    stripC z = [] := by
  unfold stripC
  rw [lstripC_eq_nil_iff.mpr hz]
  rfl

theorem stripC_eq_lstrip_rstrip (u : List Char) :
    stripC u = lstripC (rstripC u) := by
  by_cases hul : lstripC u = []
  · have hall : ∀ c ∈ u, isSpaceC c = true := lstripC_eq_nil_iff.mp hul
    rw [stripC_spaces hall, rstripC_eq_nil_iff.mpr hall]
    rfl
  · have hcore : rstripC (lstripC u) ≠ [] := by
      intro h0
      obtain ⟨c, hc, hcs⟩ := head?_lstripC_not_space hul
      have hall : ∀ d ∈ lstripC u, isSpaceC d = true := rstripC_eq_nil_iff.mp h0
      have hcm : c ∈ lstripC u := by
        cases hlu : lstripC u with
        | nil => exact absurd hlu hul
        | cons a w =>
          rw [hlu] at hc
          simp only [List.head?_cons, Option.some.injEq] at hc
          rw [← hc]
          exact List.mem_cons_self _ _
      rw [hall c hcm] at hcs
      cases hcs
    obtain ⟨z, hzdef, hzsp⟩ := lstripC_decomp u
    have hru : rstripC u = z ++ rstripC (lstripC u) := by
      conv_lhs => rw [hzdef]
      exact rstripC_append_left hcore z
    rw [hru, lstripC_spaces_append hzsp, lstripC_rstripC_lstripC]
    rfl

theorem hasTriple_concat_nl {b : List Char} (h : hasTriple b = false)
    (hlast : b.getLast? ≠ some '\n') : hasTriple (b ++ ['\n']) = false := by
  induction b with
  | nil => rfl
  | cons c B ih =>
    cases B with
    | nil => rfl
    | cons d B' =>
      have htail : hasTriple ((d :: B') ++ ['\n']) = false :=
        ih (hasTriple_tail h)
          (by rw [List.getLast?_cons_cons] at hlast; exact hlast)
      cases B' with
      | nil =>
        have hd : d ≠ '\n' := by simpa using hlast
        simp [List.cons_append, hasTriple_cons3, hd, hasTriple]
      | cons e B'' =>
        have hwin := h
        rw [hasTriple_cons3] at hwin
        rcases Bool.or_eq_false_iff.mp hwin with ⟨hw, -⟩
        rw [List.cons_append, List.cons_append, List.cons_append,
          hasTriple_cons3]
        rw [List.cons_append, List.cons_append] at htail
        simp [hw, htail]

theorem rstripC_collapseGo_concat_nl :
    ∀ (t : List Char) (n : Nat),
      rstripC (collapseGo n (t ++ ['\n'])) = rstripC (collapseGo n t) := by
  intro t
  induction t with
  | nil =>
    intro n
    rw [List.nil_append, collapseGo_cons_nl, collapseGo_nil, collapseGo_nil]
    rw [rstripC_eq_nil_iff.mpr, rstripC_eq_nil_iff.mpr]
    · intro c hc
      unfold emitNL at hc
      rw [List.eq_of_mem_replicate hc]
      rfl
    · intro c hc
      unfold emitNL at hc
      rw [List.eq_of_mem_replicate hc]
      rfl
  | cons c s ih =>
    intro n
    by_cases hc : c = '\n'
    · subst hc
      rw [List.cons_append, collapseGo_cons_nl, collapseGo_cons_nl]
      exact ih (n + 1)
    · rw [List.cons_append, collapseGo_cons_of_ne hc, collapseGo_cons_of_ne hc]
      by_cases hX : rstripC (collapseGo 0 s) = []
      · have hY : rstripC (collapseGo 0 (s ++ ['\n'])) = [] := by
          rw [ih 0]; exact hX
        have hXs : ∀ d ∈ collapseGo 0 s, isSpaceC d = true :=
          rstripC_eq_nil_iff.mp hX
        have hYs : ∀ d ∈ collapseGo 0 (s ++ ['\n']), isSpaceC d = true :=
          rstripC_eq_nil_iff.mp hY
        rw [show emitNL n ++ c :: collapseGo 0 (s ++ ['\n']) =
            (emitNL n ++ [c]) ++ collapseGo 0 (s ++ ['\n']) by simp,
          show emitNL n ++ c :: collapseGo 0 s =
            (emitNL n ++ [c]) ++ collapseGo 0 s by simp,
          rstripC_append_spaces hXs, rstripC_append_spaces hYs]
      · have hY : rstripC (collapseGo 0 (s ++ ['\n'])) ≠ [] := by
          rw [ih 0]; exact hX
        have h1 : rstripC (c :: collapseGo 0 (s ++ ['\n'])) =
            c :: rstripC (collapseGo 0 (s ++ ['\n'])) := rstripC_cons_of_ne hY
        have h2 : rstripC (c :: collapseGo 0 s) =
            c :: rstripC (collapseGo 0 s) := rstripC_cons_of_ne hX
        rw [rstripC_append_left (by rw [h1]; simp) (emitNL n),
          rstripC_append_left (by rw [h2]; simp) (emitNL n), h1, h2, ih 0]

theorem stripC_collapseBlanks_concat_nl (u : List Char) :
    stripC (collapseBlanks (u ++ ['\n'])) = stripC (collapseBlanks u) := by
  rw [stripC_eq_lstrip_rstrip, stripC_eq_lstrip_rstrip]
  unfold collapseBlanks
  rw [rstripC_collapseGo_concat_nl]

theorem splitlines_join_full {ls : List (List Char)}
    (h : ∀ l ∈ ls, '\n' ∉ l) :
    splitlinesPy (joinNL ls) =
      if ls.getLast? = some [] then ls.dropLast else ls := by
  induction ls with
  | nil => rfl
  | cons a L ih =>
    cases L with
    | nil =>
      by_cases hae : a = []
      · subst hae; simp [joinNL, splitlinesPy]
      · rw [show joinNL [a] = a from rfl,
          splitlines_no_nl (fun c hc he => (h a (by simp)) (he ▸ hc)) hae]
        simp [hae]
    | cons b L' =>
      rw [joinNL_cons (by simp),
        splitlines_append_nl (fun c hc he => (h a (by simp)) (he ▸ hc)),
        ih (fun m hm => h m (List.mem_cons_of_mem a hm))]
      rw [show (a :: b :: L').getLast? = (b :: L').getLast? from
        List.getLast?_cons_cons]
      by_cases hb : (b :: L').getLast? = some []
      · rw [if_pos hb, if_pos hb]
        rfl
      · rw [if_neg hb, if_neg hb]

theorem processLines_cons (a : List Char) (L : List (List Char)) :
    processLines (a :: L) =
      if fencedB a then processLines L
      else rstripC (tagSub (attrSub a)) :: processLines L := rfl

theorem processLines_append (A B : List (List Char)) :
    processLines (A ++ B) = processLines A ++ processLines B := by
  induction A with
  | nil => rfl
  | cons a A ih =>
    rw [List.cons_append, processLines_cons, processLines_cons]
    by_cases ha : fencedB a
    · rw [if_pos ha, if_pos ha, ih]
    · rw [if_neg ha, if_neg ha, ih, List.cons_append]

theorem joinNL_concat_nil {ls : List (List Char)} (h : ls ≠ []) :
    joinNL (ls ++ [[]]) = joinNL ls ++ ['\n'] := by
  induction ls with
  | nil => exact absurd rfl h
  | cons a L ih =>
    cases L with
    | nil => rfl
    | cons b L' =>
      rw [List.cons_append, joinNL_cons (by simp), joinNL_cons (by simp), ih (by simp)]
      simp

theorem joinNL_replicate_nil :
    ∀ m, joinNL (List.replicate m []) = List.replicate (m - 1) '\n' := by
  intro m
  induction m with
  | zero => rfl
  | succ m ih =>
    cases m with
    | zero => rfl
    | succ m' =>
      rw [List.replicate_succ, joinNL_cons (by simp), ih]
      simp [List.replicate_succ]

/-! ### Computing `attrSub` on matching lines -/

theorem attrSub_eq_of {line restRev : List Char}
    (h : (rstripC line).reverse = '\x7d' :: restRev)
    (hin : '\x7b' ∈ attrRegion restRev) :
    attrSub line = rstripC (restRev.reverse.take
        (restRev.reverse.length - (attrRegion restRev).length) ++
      (attrRegion restRev).takeWhile (fun c => c ≠ '\x7b')) := by
  unfold attrSub
  rw [h]
  split
  next restRev2 heq2 =>
    obtain rfl : restRev2 = restRev := by
      injection heq2 with h1 h2
      exact h2.symm
    rw [if_pos hin]
  next x hne => exact absurd rfl (hne restRev)

theorem attrRegion_reverse_no_brace {y : List Char}
    (hy : ∀ c ∈ y, c ≠ '\x7d') : attrRegion y.reverse = y := by
  unfold attrRegion
  rw [takeWhile_eq_self_of_all
    (by intro c hc; simp [hy c (List.mem_reverse.mp hc)]), List.reverse_reverse]

theorem attrRegion_reverse_append {u v : List Char}
    (hv : ∀ c ∈ v, c ≠ '\x7d') :
    attrRegion ((u ++ '\x7d' :: v).reverse) = v := by
  unfold attrRegion
  rw [List.reverse_append,
    show ('\x7d' :: v).reverse = v.reverse ++ ['\x7d'] from List.reverse_cons _ _,
    List.append_assoc,
    takeWhile_append_of_all
      (by intro c hc; simp [hv c (List.mem_reverse.mp hc)]) _,
    show (['\x7d'] ++ u.reverse).takeWhile (fun c => c ≠ '\x7d') = [] by
      simp [List.takeWhile_cons],
    List.append_nil, List.reverse_reverse]

theorem attrSub_two_groups (p m1 m2 : List Char) (h2 : '\x7d' ∉ m2) :
    attrSub ((p ++ '\x7b' :: m1 ++ ['\x7d']) ++ '\x7b' :: m2 ++ ['\x7d']) =
      p ++ '\x7b' :: m1 ++ ['\x7d'] := by
  set A := p ++ '\x7b' :: m1 ++ ['\x7d'] with hA
  have hline : A ++ '\x7b' :: m2 ++ ['\x7d'] = (A ++ '\x7b' :: m2) ++ ['\x7d'] := by
    simp
  have hr : rstripC ((A ++ '\x7b' :: m2) ++ ['\x7d']) =
      (A ++ '\x7b' :: m2) ++ ['\x7d'] :=
    rstripC_eq_self_of (List.getLast?_concat _) (by decide)
  have hrev : (rstripC ((A ++ '\x7b' :: m2) ++ ['\x7d'])).reverse =
      '\x7d' :: (A ++ '\x7b' :: m2).reverse := by
    rw [hr, List.reverse_append]
    rfl
  have hregion : attrRegion ((A ++ '\x7b' :: m2).reverse) = '\x7b' :: m2 := by
    rw [show A ++ '\x7b' :: m2 = (p ++ '\x7b' :: m1) ++ '\x7d' :: ('\x7b' :: m2) by
      rw [hA]; simp]
    exact attrRegion_reverse_append (by
      intro c hc
      rcases List.mem_cons.mp hc with h | h
      · subst h; decide
      · exact fun he => h2 (he ▸ h))
  rw [hline, attrSub_eq_of hrev (by rw [hregion]; exact List.mem_cons_self _ _),
    hregion, List.reverse_reverse]
  rw [show (('\x7b' :: m2).takeWhile (fun c => c ≠ '\x7b')) = [] by
    simp [List.takeWhile_cons]]
  rw [List.append_nil]
  have hlen : (A ++ '\x7b' :: m2).length - ('\x7b' :: m2).length = A.length := by
    simp
  rw [hlen, List.take_left]
  apply rstripC_eq_self_of (c := '\x7d')
  · rw [hA, show p ++ '\x7b' :: m1 ++ ['\x7d'] = (p ++ '\x7b' :: m1) ++ ['\x7d'] by simp]
    exact List.getLast?_concat _
  · decide

theorem attrSub_attr_only {l : List Char} (h : attrOnlyB l = true) :
    attrSub l = [] := by
  unfold attrOnlyB at h
  split at h
  next r heq =>
    rcases Bool.and_eq_true_iff.mp h with ⟨h1, h2⟩
    have h1' : (rstripC r).getLast? = some '\x7d' := by simpa using h1
    have h2' : '\x7d' ∉ (rstripC r).dropLast := by simpa using h2
    obtain ⟨w1, hw1, hw1sp⟩ := lstripC_decomp l
    obtain ⟨w2, hw2, hw2sp⟩ := rstripC_decomp r
    have hmid : rstripC r = (rstripC r).dropLast ++ ['\x7d'] :=
      (List.dropLast_append_getLast? _ h1').symm
    set mid := (rstripC r).dropLast with hmiddef
    have hl : l = (w1 ++ '\x7b' :: mid ++ ['\x7d']) ++ w2 := by
      conv_lhs => rw [hw1, heq]
      conv_lhs => rw [hw2]
      conv_lhs => rw [hmid]
      simp
    have hnb : ∀ c ∈ w1 ++ '\x7b' :: mid, c ≠ '\x7d' := by
      intro c hc
      rcases List.mem_append.mp hc with hcw | hcm
      · intro he
        have := hw1sp c hcw
        rw [he] at this
        simp [isSpaceC] at this
      · rcases List.mem_cons.mp hcm with he | hcm'
        · subst he; decide
        · exact fun he => h2' (he ▸ hcm')
    have hrl : rstripC l = (w1 ++ '\x7b' :: mid) ++ ['\x7d'] := by
      rw [hl, show w1 ++ '\x7b' :: mid ++ ['\x7d'] = (w1 ++ '\x7b' :: mid) ++ ['\x7d'] by simp,
        rstripC_append_spaces hw2sp]
      exact rstripC_eq_self_of (List.getLast?_concat _) (by decide)
    have hrev : (rstripC l).reverse = '\x7d' :: (w1 ++ '\x7b' :: mid).reverse := by
      rw [hrl, List.reverse_append]
      rfl
    have hregion : attrRegion ((w1 ++ '\x7b' :: mid).reverse) =
        w1 ++ '\x7b' :: mid := attrRegion_reverse_no_brace hnb
    rw [attrSub_eq_of hrev (by rw [hregion]; simp), hregion, List.reverse_reverse]
    rw [Nat.sub_self, List.take_zero, List.nil_append]
    rw [takeWhile_append_of_all (by
      intro c hc
      have := hw1sp c hc
      simp only [decide_eq_true_eq]
      intro he
      rw [he] at this
      simp [isSpaceC] at this) _]
    rw [show (('\x7b' :: mid).takeWhile (fun c => c ≠ '\x7b')) = [] by
      simp [List.takeWhile_cons]]
    rw [List.append_nil]
    exact rstripC_eq_nil_iff.mpr hw1sp
  next => cases h

/-! ### Output-shape facts used by several claims -/

theorem stripC_getLast?_ne_nl {y : List Char} (hne : stripC y ≠ []) :
    (stripC y).getLast? ≠ some '\n' := by
  obtain ⟨c, hc, hcs⟩ := stripC_getLast?_not_space hne
  intro hcon
  rw [hcon] at hc
  simp only [Option.some.injEq] at hc
  subst hc
  simp [isSpaceC] at hcs

theorem hasTriple_clean_markdown (x : List Char) :
    hasTriple (clean_markdown x) = false := by
  rw [clean_markdown_eq]
  have htb : hasTriple (stripC (collapseBlanks
      (joinNL (processLines (splitlinesPy x))))) = false :=
    hasTriple_stripC (hasTriple_collapseBlanks _)
  by_cases hbe : stripC (collapseBlanks
      (joinNL (processLines (splitlinesPy x)))) = []
  · rw [hbe]; rfl
  · exact hasTriple_concat_nl htb (stripC_getLast?_ne_nl hbe)

theorem rstripped_lines_clean_markdown (x : List Char) :
    linesRstripped (clean_markdown x) = true := by
  unfold linesRstripped
  rw [List.all_eq_true]
  intro l hl
  rw [beq_iff_eq]
  rw [clean_markdown_eq] at hl
  have hlines1 : ∀ m ∈ splitlinesPy (collapseBlanks
      (joinNL (processLines (splitlinesPy x)))), rstripC m = m := by
    apply pred_lines_collapseBlanks (fun m => rstripC m = m) rfl
    intro m hm
    have hmem := mem_splitlines_join
      (fun u hu => (processLines_lines_rstripped u hu).2) m hm
    exact (processLines_lines_rstripped m hmem).1
  have hlinesb := pred_lines_stripC (fun m => rstripC m = m)
    (fun c m _ hm => rstripC_self_tail hm) (fun m _ => rstripC_idem m) hlines1
  by_cases hbe : stripC (collapseBlanks
      (joinNL (processLines (splitlinesPy x)))) = []
  · rw [hbe] at hl
    rw [show ([] : List Char) ++ ['\n'] = ['\n'] from rfl] at hl
    rw [show splitlinesPy ['\n'] = [[]] by
      rw [splitlines_cons_nl]; rfl] at hl
    simp only [List.mem_singleton] at hl
    subst hl
    rfl
  · rw [splitlines_concat_nl hbe (stripC_getLast?_ne_nl hbe)] at hl
    exact hlinesb l hl

/-! ### Fallback-driver lemmas -/

theorem fallbackGo_first_success (conv : List Char → Bool × List Char) :
    ∀ (cands : List (List Char)) (k : Nat) (hk : k < cands.length),
      (∀ i (hi : i < cands.length), i < k → (conv (cands.get ⟨i, hi⟩)).1 = false) →
      (conv (cands.get ⟨k, hk⟩)).1 = true →
      ∀ acc, fallbackGo conv acc cands =
        (true, cands.get ⟨k, hk⟩, (conv (cands.get ⟨k, hk⟩)).2) := by
  intro cands
  induction cands with
  | nil => intro k hk; simp at hk
  | cons f rest ih =>
    intro k hk hfail hsucc acc
    cases k with
    | zero =>
      have hs : (conv f).1 = true := hsucc
      unfold fallbackGo
      rw [if_pos hs]
      rfl
    | succ k' =>
      have hf : (conv f).1 = false := hfail 0 (by simp) (by omega)
      unfold fallbackGo
      rw [if_neg (by simp [hf])]
      exact ih k' (by simpa using hk)
        (fun i hi hik => hfail (i + 1) (by simpa using hi) (by omega))
        hsucc _

theorem fallbackTrace_first_success (conv : List Char → Bool × List Char) :
    ∀ (cands : List (List Char)) (k : Nat) (hk : k < cands.length),
      (∀ i (hi : i < cands.length), i < k → (conv (cands.get ⟨i, hi⟩)).1 = false) →
      (conv (cands.get ⟨k, hk⟩)).1 = true →
      fallbackTrace conv cands = cands.take (k + 1) := by
  intro cands
  induction cands with
  | nil => intro k hk; simp at hk
  | cons f rest ih =>
    intro k hk hfail hsucc
    cases k with
    | zero =>
      have hs : (conv f).1 = true := hsucc
      unfold fallbackTrace
      rw [if_pos hs]
      rfl
    | succ k' =>
      have hf : (conv f).1 = false := hfail 0 (by simp) (by omega)
      unfold fallbackTrace
      rw [if_neg (by simp [hf])]
      rw [ih k' (by simpa using hk)
        (fun i hi hik => hfail (i + 1) (by simpa using hi) (by omega)) hsucc]
      rfl

theorem fallbackGo_all_fail (conv : List Char → Bool × List Char) :
    ∀ (cands : List (List Char)) (lastf : List Char),
      cands.getLast? = some lastf →
      (∀ f ∈ cands, (conv f).1 = false) →
      ∀ acc, fallbackGo conv acc cands =
        (false, [], '[' :: lastf ++ ']' :: ' ' :: (conv lastf).2) := by
  intro cands
  induction cands with
  | nil => intro lastf h; cases h
  | cons f rest ih =>
    intro lastf hlast hfail acc
    have hf : (conv f).1 = false := hfail f (List.mem_cons_self f rest)
    unfold fallbackGo
    rw [if_neg (by simp [hf])]
    cases rest with
    | nil =>
      simp only [List.getLast?_singleton, Option.some.injEq] at hlast
      subst hlast
      rfl
    | cons g rest' =>
      rw [List.getLast?_cons_cons] at hlast
      exact ih lastf hlast (fun m hm => hfail m (List.mem_cons_of_mem f hm)) _

/-! ### Lines of a fenced-line-free insertion (C5 support) -/

theorem stripC_collapse_join_concat_nil {P : List (List Char)} :
    stripC (collapseBlanks (joinNL (P ++ [[]]))) =
      stripC (collapseBlanks (joinNL P)) := by
  cases hP : P with
  | nil => rfl
  | cons a L =>
    rw [← hP, joinNL_concat_nil (by rw [hP]; simp),
      stripC_collapseBlanks_concat_nl]

theorem processLines_fenced_singleton {f : List Char} (hfen : fencedB f = true) :
    processLines [f] = [] := by
  rw [processLines_cons, if_pos hfen]
  rfl

theorem clean_markdown_fenced_insert (A B : List (List Char)) (f : List Char)
    (hA : ∀ l ∈ A, '\n' ∉ l) (hB : ∀ l ∈ B, '\n' ∉ l) (hf : '\n' ∉ f)
    (hfen : fencedB f = true) :
    clean_markdown (joinNL (A ++ f :: B)) = clean_markdown (joinNL (A ++ B)) := by
  have hfne : f ≠ [] := by
    intro h0; rw [h0] at hfen; exact absurd hfen (by decide)
  have hLall : ∀ l ∈ A ++ f :: B, '\n' ∉ l := by
    intro l hl
    rcases List.mem_append.mp hl with h | h
    · exact hA l h
    · rcases List.mem_cons.mp h with h | h
      · subst h; exact hf
      · exact hB l h
  have hRall : ∀ l ∈ A ++ B, '\n' ∉ l := by
    intro l hl
    rcases List.mem_append.mp hl with h | h
    · exact hA l h
    · exact hB l h
  rw [clean_markdown_eq, clean_markdown_eq]
  congr 1
  rw [splitlines_join_full hLall, splitlines_join_full hRall]
  cases B with
  | nil =>
    rw [List.append_nil]
    have hLlast : (A ++ f :: ([] : List (List Char))).getLast? = some f := by
      rw [List.getLast?_append_of_ne_nil _ (by simp)]
      rfl
    rw [if_neg (by rw [hLlast]; simp [hfne])]
    rw [processLines_append, processLines_fenced_singleton hfen, List.append_nil]
    by_cases hAlast : A.getLast? = some []
    · rw [if_pos hAlast]
      have hAde : A = A.dropLast ++ [[]] :=
        (List.dropLast_append_getLast? [] hAlast).symm
      conv_lhs => rw [hAde]
      rw [processLines_append, show processLines [[]] = [[]] by decide]
      exact stripC_collapse_join_concat_nil
    · rw [if_neg hAlast]
  | cons b B' =>
    have hLlast : (A ++ f :: b :: B').getLast? = (b :: B').getLast? := by
      rw [List.getLast?_append_of_ne_nil _ (by simp), List.getLast?_cons_cons]
    have hRlast : (A ++ b :: B').getLast? = (b :: B').getLast? :=
      List.getLast?_append_of_ne_nil _ (by simp)
    rw [hLlast, hRlast]
    by_cases hBl : (b :: B').getLast? = some []
    · rw [if_pos hBl, if_pos hBl,
        List.dropLast_append_of_ne_nil A (show f :: b :: B' ≠ [] by simp),
        List.dropLast_append_of_ne_nil A (show b :: B' ≠ [] by simp),
        show (f :: b :: B').dropLast = f :: (b :: B').dropLast from rfl,
        processLines_append, processLines_append, processLines_cons,
        if_pos hfen]
    · rw [if_neg hBl, if_neg hBl, processLines_append, processLines_append,
        processLines_cons, if_pos hfen]

theorem clean_markdown_markup_only {x : List Char}
    (h : ∀ l ∈ splitlinesPy x, fencedB l = true ∨ attrOnlyB l = true) :
    clean_markdown x = ['\n'] := by
  rw [clean_markdown_eq]
  have hall : ∀ l ∈ processLines (splitlinesPy x), l = [] := by
    intro l hl
    obtain ⟨l0, h1, h2, h3⟩ := mem_processLines hl
    rcases h l0 h1 with hfen | hao
    · rw [hfen] at h2; cases h2
    · rw [attrSub_attr_only hao,
        show tagSub ([] : List Char) = [] from tagSubF_zero []] at h3
      exact h3
  have hrep := List.eq_replicate_of_mem hall
  rw [hrep, joinNL_replicate_nil]
  have hcol : collapseBlanks (List.replicate
      ((processLines (splitlinesPy x)).length - 1) '\n') =
      emitNL (0 + ((processLines (splitlinesPy x)).length - 1)) := by
    unfold collapseBlanks
    rw [show List.replicate ((processLines (splitlinesPy x)).length - 1) '\n' =
      List.replicate ((processLines (splitlinesPy x)).length - 1) '\n' ++ [] by
        simp]
    rw [collapseGo_pending]
    rfl
  rw [hcol]
  rw [stripC_spaces (by
    intro c hc
    unfold emitNL at hc
    rw [List.eq_of_mem_replicate hc]
    rfl)]
  rfl

/-! ### Claim theorems -/

/-- C1 (counterexample): `clean_markdown` is not idempotent as claimed.
At the input `"a {x}{y}"` one application removes only the last attribute
group, so the second application removes another one; at the input
`":::<b>"` tag stripping manufactures a fenced-div delimiter line which
only the second application drops. -/
theorem clean_markdown_idem_cex :
    clean_markdown (clean_markdown "a \x7bx\x7d\x7by\x7d".data) ≠
        clean_markdown "a \x7bx\x7d\x7by\x7d".data ∧
      clean_markdown (clean_markdown ":::<b>".data) ≠
        clean_markdown ":::<b>".data := by
  constructor <;> decide

/-- C1 (amended): normalization is idempotent on every input text that
contains no `{` and no `<` character (the two characters whose one-pass
removal rules can leave a new match behind):
`clean_markdown (clean_markdown x) = clean_markdown x`. -/
theorem clean_markdown_idem_of_plain_chars {x : List Char}
    (hb : '\x7b' ∉ x) (hl : '<' ∉ x) :
    clean_markdown (clean_markdown x) = clean_markdown x := by
  rw [clean_markdown_eq x]
  exact clean_markdown_fixed (stripC_idem _)
    (hasTriple_stripC (hasTriple_collapseBlanks _))
    (clean_markdown_good hb hl)

theorem clean_markdown_idem_plain_witness :
    clean_markdown (clean_markdown " a\n\n\n\n:::\nb> ".data) =
      clean_markdown " a\n\n\n\n:::\nb> ".data :=
  clean_markdown_idem_of_plain_chars (by decide) (by decide)

/-- C2: the fallback driver tries the candidate formats strictly in list
order and stops at the first success.  `fallbackTrace` is the sequence of
formats the loop invokes the converter with (the loop body performs
exactly one `run_pandoc` invocation per iteration and returns on the
first success).  If every candidate before position `k` fails and the
candidate at `k` succeeds, the invocation trace is exactly the first
`k + 1` candidates — one invocation per candidate up to and including
`k`, none after — and the driver returns success with the `k`-th
candidate's format string and its message. -/
theorem convert_with_fallback_first_success
    (conv : List Char → Bool × List Char) (cands : List (List Char))
    (k : Nat) (hk : k < cands.length)
    (hfail : ∀ i (hi : i < cands.length), i < k →
      (conv (cands.get ⟨i, hi⟩)).1 = false)
    (hsucc : (conv (cands.get ⟨k, hk⟩)).1 = true) :
    fallbackTrace conv cands = cands.take (k + 1) ∧
      convert_with_fallback conv cands =
        (true, cands.get ⟨k, hk⟩, (conv (cands.get ⟨k, hk⟩)).2) :=
  ⟨fallbackTrace_first_success conv cands k hk hfail hsucc,
    fallbackGo_first_success conv cands k hk hfail hsucc []⟩

theorem convert_with_fallback_first_success_witness :
    fallbackTrace (fun g => (g == "gfm".data, "w".data)) TO_CANDIDATES =
        TO_CANDIDATES.take 4 ∧
      convert_with_fallback (fun g => (g == "gfm".data, "w".data))
          TO_CANDIDATES =
        (true, "gfm".data, "w".data) := by
  have h := convert_with_fallback_first_success
    (fun g => (g == "gfm".data, "w".data)) TO_CANDIDATES 3
    (by decide) (by decide) (by decide)
  refine ⟨h.1, ?_⟩
  rw [h.2]
  decide

/-- C3 (counterexample): when every candidate fails, the surfaced message
is not the last candidate's diagnostic text itself: it is that text
prefixed with the candidate format in square brackets
(`f"[{to_format}] {msg}"`, built in the loop's `last_error`). -/
theorem convert_with_fallback_last_msg_cex :
    (convert_with_fallback (fun g => (false, "boom".data))
        TO_CANDIDATES).2.2 = "[plain] boom".data ∧
      (convert_with_fallback (fun g => (false, "boom".data))
        TO_CANDIDATES).2.2 ≠ "boom".data := by
  constructor <;> decide

/-- C3 (amended): when every candidate format fails, the driver returns
failure, and the message it surfaces is the last attempted candidate's
diagnostic text prefixed with that candidate's format in square brackets:
`"[" ++ lastFormat ++ "] " ++ lastDiagnostic`. -/
theorem convert_with_fallback_all_fail (conv : List Char → Bool × List Char)
    (cands : List (List Char)) (lastf : List Char)
    (hlast : cands.getLast? = some lastf)
    (hfail : ∀ f ∈ cands, (conv f).1 = false) :
    convert_with_fallback conv cands =
      (false, [], '[' :: lastf ++ ']' :: ' ' :: (conv lastf).2) :=
  fallbackGo_all_fail conv cands lastf hlast hfail []

theorem convert_with_fallback_all_fail_witness :
    convert_with_fallback (fun g => (false, "boom".data)) TO_CANDIDATES =
      (false, [], "[plain] boom".data) := by
  rw [convert_with_fallback_all_fail (fun g => (false, "boom".data))
    TO_CANDIDATES "plain".data (by decide) (by decide)]
  decide

/-- C4: for every non-empty input, the normalized output ends with
exactly one newline character and has no trailing blank line before it:
its last character is `'\n'` and the preceding character, if any, is not
whitespace. -/
theorem clean_markdown_single_trailing_newline (x : List Char)
    (hx : x ≠ []) : endsSingleNL (clean_markdown x) = true := by
  rw [clean_markdown_eq]
  unfold endsSingleNL
  rw [List.getLast?_concat, List.dropLast_concat]
  simp only [beq_self_eq_true, Bool.true_and]
  cases he : (stripC (collapseBlanks
      (joinNL (processLines (splitlinesPy x))))).getLast? with
  | none => rfl
  | some c =>
    have hne : stripC (collapseBlanks
        (joinNL (processLines (splitlinesPy x)))) ≠ [] := by
      intro h0; rw [h0] at he; cases he
    obtain ⟨d, hd, hds⟩ := stripC_getLast?_not_space hne
    rw [he] at hd
    simp only [Option.some.injEq] at hd
    subst hd
    simp [hds]

theorem clean_markdown_single_trailing_newline_witness :
    endsSingleNL (clean_markdown " x ".data) = true :=
  clean_markdown_single_trailing_newline " x ".data (by decide)

/-- C5: a line matching `RE_FENCED_DIV_LINE` (solely three-or-more
colons, optionally followed by a brace-delimited attribute group) is
dropped from the output: inserting such a line `f` between any two blocks
of lines `A` and `B` yields exactly the output of the text without it,
so the content lines around the dropped line are preserved. -/
theorem clean_markdown_drops_fenced_lines (A B : List (List Char))
    (f : List Char) (hA : ∀ l ∈ A, '\n' ∉ l) (hB : ∀ l ∈ B, '\n' ∉ l)
    (hf : '\n' ∉ f) (hfen : fencedB f = true) :
    clean_markdown (joinNL (A ++ f :: B)) =
      clean_markdown (joinNL (A ++ B)) :=
  clean_markdown_fenced_insert A B f hA hB hf hfen

theorem clean_markdown_drops_fenced_lines_witness :
    clean_markdown (joinNL (["alpha".data] ++ "::: \x7b.note\x7d".data ::
        ["beta".data])) =
      clean_markdown (joinNL (["alpha".data] ++ ["beta".data])) :=
  clean_markdown_drops_fenced_lines ["alpha".data] ["beta".data]
    "::: \x7b.note\x7d".data (by decide) (by decide) (by decide) (by decide)

/-- C6: the output of `clean_markdown` never contains three consecutive
newline characters (at most one fully blank line between content blocks),
and a run of four newlines between two paragraphs collapses to exactly
two (one blank line). -/
theorem clean_markdown_blank_run_collapse :
    (∀ x : List Char, hasTriple (clean_markdown x) = false) ∧
      clean_markdown "para1\n\n\n\npara2".data = "para1\n\npara2\n".data :=
  ⟨fun x => hasTriple_clean_markdown x, by decide⟩

/-- C7: `clean_markdown` maps the empty string to a single newline, and
likewise any text whose every line is container/attribute markup (a
fenced-div delimiter line or a line that is exactly one brace-delimited
attribute group). -/
theorem clean_markdown_markup_only_claim :
    clean_markdown [] = ['\n'] ∧
      ∀ x : List Char,
        (∀ l ∈ splitlinesPy x, fencedB l = true ∨ attrOnlyB l = true) →
        clean_markdown x = ['\n'] :=
  ⟨by decide, fun x h => clean_markdown_markup_only h⟩

theorem clean_markdown_markup_only_witness :
    clean_markdown ":::\n\x7b.note\x7d\n::: \x7ba\x7d".data = ['\n'] := by
  apply clean_markdown_markup_only_claim.2
  decide

/-- C8: for every input text, the output of `clean_markdown` contains no
three consecutive newline characters and no line with trailing
whitespace — each kept line is right-stripped before blank runs are
collapsed, so the invariant holds even for inputs with whitespace-only
lines. -/
theorem clean_markdown_lines_invariant (x : List Char) :
    hasTriple (clean_markdown x) = false ∧
      linesRstripped (clean_markdown x) = true :=
  ⟨hasTriple_clean_markdown x, rstripped_lines_clean_markdown x⟩

/-- C9: `RE_ATTR_TRAILING` removes only the final brace group in one
pass: on a line ending in two adjacent brace groups `{m1}{m2}` a single
substitution removes only `{m2}` and leaves `{m1}` at the end of the
line; correspondingly a single `clean_markdown` application sends
`"a {x}{y}"` to `"a {x}\n"`. -/
theorem attr_trailing_two_groups_claim :
    (∀ p m1 m2 : List Char, '\x7d' ∉ m2 →
        attrSub ((p ++ '\x7b' :: m1 ++ ['\x7d']) ++ '\x7b' :: m2 ++ ['\x7d']) =
          p ++ '\x7b' :: m1 ++ ['\x7d']) ∧
      clean_markdown "a \x7bx\x7d\x7by\x7d".data = "a \x7bx\x7d\n".data :=
  ⟨fun p m1 m2 h2 => attrSub_two_groups p m1 m2 h2, by decide⟩

theorem attr_trailing_two_groups_witness :
    attrSub (("a ".data ++ '\x7b' :: "x".data ++ ['\x7d']) ++
        '\x7b' :: "y".data ++ ['\x7d']) =
      "a ".data ++ '\x7b' :: "x".data ++ ['\x7d'] :=
  attr_trailing_two_groups_claim.1 "a ".data "x".data "y".data (by decide)

/-- C10: for every path that is not located under the given base
directory (its components do not extend the base's components),
`is_in_skipped_dir` returns `False`: the `ValueError` from `relative_to`
is caught and treated as not-skipped. -/
theorem is_in_skipped_dir_outside_base (path base : List (List Char))
    (h : base.isPrefixOf path = false) :
    is_in_skipped_dir path base = false := by
  simp [is_in_skipped_dir, relativeTo, h]

theorem is_in_skipped_dir_outside_base_witness :
    is_in_skipped_dir ["docs".data, "a.docx".data] ["other".data] = false :=
  is_in_skipped_dir_outside_base ["docs".data, "a.docx".data]
    ["other".data] (by decide)

-- Sanity checks of the text model against the spec's §8 examples.
example : clean_markdown "some text \x7b.class #id\x7d".data = "some text\n".data := by decide
example : clean_markdown "<span>inner</span> rest".data = "inner rest\n".data := by decide
example : clean_markdown "a\n\n\n\nb".data = "a\n\nb\n".data := by decide
example : clean_markdown ":::\nkeep".data = "keep\n".data := by decide
example : clean_markdown "::: \x7b.note\x7d".data = "\n".data := by decide
example : clean_markdown [] = ['\n'] := by decide
example : attrSub "a \x7bx\x7d\x7by\x7d".data = "a \x7bx\x7d".data := by decide
example : clean_markdown (clean_markdown "a \x7bx\x7d\x7by\x7d".data) ≠
    clean_markdown "a \x7bx\x7d\x7by\x7d".data := by decide

end Metrix
